import Mathlib

/-!
# Verification of the DirectoryMapper incremental directory indexer

This file gives a shallow embedding, in Lean 4, of the core of
`map_directory.py` (the DirectoryMapper repository): glob-based ignore
matching (`fnmatch`/`should_ignore`), the `.gitignore` chain resolver
(`load_gitignore_patterns`), per-file content summarization
(`parse_python_file`, `parse_markdown_file`, `get_intelligent_summary`),
byte-size formatting (`get_size_format`), and the cache-aware,
depth-bounded tree walker (`map_directory`), together with theorems
checking the natural-language specification against the embedded code.

Modelling conventions:
* Filesystem paths are lists of name components (absolute, from the
  filesystem root); `pathStr` renders them the way `str(Path(...))` does
  on POSIX.
* The filesystem seen by the walker is a finite in-memory tree
  (`FSEntry`); a directory records whether listing it succeeds
  (`os.scandir` raising `PermissionError`/`FileNotFoundError` is
  modelled by `listable = false`), an entry records whether `stat`
  succeeds (`stat = none` models `entry.stat()` raising, e.g. for a
  dangling symlink or an entry removed between listing and stat), and a
  file records whether opening/reading it succeeds (`readable`).
* Machine floats (`st_mtime`) are modelled as `Int`: the code only ever
  compares them for equality.  Byte sizes are `Nat`.
* `ast.parse` (the CPython parser, an external collaborator of
  `parse_python_file`) is modelled as an abstract parse outcome
  `Except Unit (List PyStmt)` supplied by the environment; the part of
  the Python AST relevant to the summarizer (imports, function / class
  definitions, and the fact that arbitrary statements can nest further
  statements) is the type `PyStmt`.
* Exceptions escaping the walker are modelled by the walker returning
  `Except Unit`.
-/

set_option maxHeartbeats 1000000
set_option maxRecDepth 2500

namespace DirMapper

/-! ## Shell-glob matching (Python `fnmatch.fnmatch`, POSIX: no case folding)

`fnmatch` translates a pattern with `*`, `?` and `[...]` character
classes (leading `!` negates; a `]` right after the opening (and the
optional `!`) is a literal member; `a-b` is a code-point range; a `[`
with no closing `]` is a literal `[`). -/

/-- Scan the tail of a character class up to the closing `]`.
Returns the class characters and the remaining pattern, or `none` if the
class is unterminated. -/
def classScan : List Char → Option (List Char × List Char)
  | [] => none
  | c :: r =>
    if c = ']' then some ([], r)
    else
      match classScan r with
      | some (cls, rem) => some (c :: cls, rem)
      | none => none

/-- Helper for `splitClass`, entered after the optional `!` has been
consumed: a `]` in the very first position is an ordinary member. -/
def splitClassAux (neg : Bool) (cs : List Char) : Option (Bool × List Char × List Char) :=
  match cs with
  | [] => none
  | c :: r =>
    if c = ']' then (classScan r).map (fun pr => (neg, ']' :: pr.1, pr.2))
    else (classScan (c :: r)).map (fun pr => (neg, pr.1, pr.2))

/-- Split a character class starting just after `[`: returns the
negation flag, the member characters, and the rest of the pattern
(mirrors the `j`-scanning in `fnmatch.translate`, where a `]` directly
after `[` or `[!` is an ordinary member). -/
def splitClass (cs : List Char) : Option (Bool × List Char × List Char) :=
  match cs with
  | [] => none
  | c :: r => if c = '!' then splitClassAux true r else splitClassAux false (c :: r)

/-- Membership test for a character class body: `a-b` (three characters
with a middle dash) is a code-point range, every other character is a
literal member (a leading or trailing `-` is literal, as in
`fnmatch.translate`). -/
def classMatches : List Char → Char → Bool
  | a :: '-' :: b :: rest, c => (a ≤ c && c ≤ b) || classMatches rest c
  | a :: rest, c => (a == c) || classMatches rest c
  | [], _ => false

/-- The glob matcher behind `fnmatch.fnmatch(name, pat)`: `*` matches
any run of characters, `?` exactly one, `[...]` one character in (or,
with `!`, outside) the class; all other characters match literally. -/
def globMatch (p : List Char) (s : List Char) : Bool :=
  match p, s with
  | [], [] => true
  | [], _ :: _ => false
  | '*' :: ps, [] => globMatch ps []
  | '*' :: ps, c :: cs => globMatch ps (c :: cs) || globMatch ('*' :: ps) cs
  | '?' :: ps, s' =>
    match s' with
    | [] => false
    | _ :: cs => globMatch ps cs
  | '[' :: ps, s' =>
    match splitClass ps with
    | some (neg, cls, rem) =>
      match s' with
      | [] => false
      | c :: cs => (classMatches cls c != neg) && globMatch rem cs
    | none =>
      match s' with
      | [] => false
      | c :: cs => (c == '[') && globMatch ps cs
  | a :: ps, s' =>
    match s' with
    | [] => false
    | c :: cs => (a == c) && globMatch ps cs
termination_by (s.length, p.length)

/-- `fnmatch.fnmatch(name, pattern)` (POSIX `normcase` is the
identity). -/
def fnmatch (name pattern : String) : Bool :=
  globMatch pattern.data name.data

/-- `should_ignore(path, ignore_patterns)`: the path is ignored iff some
pattern glob-matches its base name (`path.name`) or its full string form
(`str(path)`).  The Python code iterates with an early `return True`;
over a set of patterns this is exactly an existential, so we embed it
with `List.any` (set iteration order is irrelevant to the result). -/
def should_ignore (name full : String) (patterns : List String) : Bool :=
  patterns.any (fun pat => fnmatch name pat || fnmatch full pat)

/-! ## Size formatting (`get_size_format`)

`size_bytes` enters as a Python `int` and is then divided by the float
`1024.0`.  Division of a double by 1024 is exact (it only shifts the
exponent), and every input below `2^53` converts to float exactly, so
for such inputs the float computation is exact rational arithmetic on
values `n / 1024^k`; we embed it over `ℚ`.  `f"{x:.2f}"` renders the
value with two decimals, correctly rounded with ties to even (for the
dyadic values reached here a tie is impossible, see
`get_size_format`'s theorem development). -/

/-- Round a rational to the nearest integer, ties to even (the rounding
CPython's float formatting applies to the exact value). -/
def roundHalfEven (x : ℚ) : ℤ :=
  let f := ⌊x⌋
  if x - f < 1 / 2 then f
  else if x - f > 1 / 2 then f + 1
  else if f % 2 = 0 then f else f + 1

/-- `f"{x:.2f}"` for a non-negative value: two decimal places. -/
def fmt2 (x : ℚ) : String :=
  let c := (roundHalfEven (x * 100)).toNat
  toString (c / 100) ++ "." ++ (if c % 100 < 10 then "0" ++ toString (c % 100) else toString (c % 100))

/-- The unit list walked by the `for unit in [...]` loop. -/
def sizeUnits : List String := ["B", "KB", "MB", "GB", "TB"]

/-- The loop body of `get_size_format`: return at the first unit where
the value is below 1024, else divide by 1024 and continue; after `TB`
fall through to `PB`. -/
def sizeLoop (x : ℚ) : List String → String
  | [] => fmt2 x ++ " PB"
  | u :: us => if x < 1024 then fmt2 x ++ " " ++ u else sizeLoop (x / 1024) us

/-- `get_size_format(size_bytes)` for a non-negative integer input (the
`None → "N/A"` branch is for directory nodes in the text renderer and is
outside the integer contract checked here). -/
def get_size_format (n : Nat) : String :=
  if n = 0 then "0 B" else sizeLoop (n : ℚ) sizeUnits

/-- Spec-side description of which unit the loop lands on: the first
`k ≤ 5` with `n < 1024^(k+1)`, capped at 5 (`PB`). -/
def unitIdx (n : Nat) : Nat :=
  if n < 1024 then 0
  else if n < 1024 ^ 2 then 1
  else if n < 1024 ^ 3 then 2
  else if n < 1024 ^ 4 then 3
  else if n < 1024 ^ 5 then 4
  else 5

/-- Unit name for a unit index. -/
def unitName (k : Nat) : String := (sizeUnits ++ ["PB"]).getD k "PB"

/-! ## The Python AST fragment seen by `parse_python_file`

`parse_python_file` inspects the result of `ast.parse` with `ast.walk`
and reacts only to `Import`, `ImportFrom`, `FunctionDef`,
`AsyncFunctionDef` and `ClassDef` nodes; every other node matters only
through the child nodes it can carry.  `PyStmt` is that fragment: the
`other` constructor stands for any other AST node together with the
(flattened) child nodes `ast.iter_child_nodes` would yield for it. -/

inductive PyStmt where
  | importStmt (names : List String)
  | importFrom (level : Nat) (module : Option String)
  | funcDef (name : String) (body : List PyStmt)
  | asyncFuncDef (name : String) (body : List PyStmt)
  | classDef (name : String) (body : List PyStmt)
  | other (body : List PyStmt)

/-- `ast.iter_child_nodes`, restricted to the modelled fragment: the
matched node kinds carry their nested statements, imports carry none. -/
def PyStmt.children : PyStmt → List PyStmt
  | .importStmt _ => []
  | .importFrom _ _ => []
  | .funcDef _ b => b
  | .asyncFuncDef _ b => b
  | .classDef _ b => b
  | .other b => b

mutual

/-- Node count of a statement tree (termination measure for the walk). -/
def PyStmt.size : PyStmt → Nat
  | .importStmt _ => 1
  | .importFrom _ _ => 1
  | .funcDef _ b => 1 + PyStmt.sizeList b
  | .asyncFuncDef _ b => 1 + PyStmt.sizeList b
  | .classDef _ b => 1 + PyStmt.sizeList b
  | .other b => 1 + PyStmt.sizeList b

/-- Total node count of a list of statement trees. -/
def PyStmt.sizeList : List PyStmt → Nat
  | [] => 0
  | s :: r => PyStmt.size s + PyStmt.sizeList r

end

/-! ## The environment: external collaborators

The upward/downward `.gitignore` discovery looks at directories *above*
the scan root, and the summarizer calls the external CPython parser, so
both are supplied abstractly. -/

/-- External collaborators of the indexer: `(p / ".git").is_dir()`,
reading the lines of `p / ".gitignore"` (`none` models "no such file"
as well as an `IOError`, both of which contribute nothing), and
`ast.parse` (returning the top-level statement list, or `Except.error`
for a `SyntaxError`). -/
structure Env where
  hasGitDir : List String → Bool
  gitignoreLines : List String → Option (List String)
  pyParse : String → Except Unit (List PyStmt)

/-! ## Paths -/

/-- `str(path)` for an absolute POSIX path given by its components
(`[]` is the filesystem root `/`): a leading `/` before each
component. -/
def pathStr (p : List String) : String :=
  match p with
  | [] => "/"
  | _ => p.foldl (fun acc c => acc ++ "/" ++ c) ""

/-- `PurePath.suffix` of a file name: the substring from the last dot,
provided that dot is neither the first nor the last character of the
name; otherwise the empty string. -/
def pySuffix (name : String) : String :=
  let cs := name.data
  match ((List.range cs.length).filter (fun i => cs.getD i ' ' = '.')).getLast? with
  | some i => if 0 < i ∧ i < cs.length - 1 then (cs.drop i).asString else ""
  | none => ""

/-- `str.lower()`, character by character (`String.toLower` does the
same but through a byte-position loop the kernel cannot evaluate). -/
def pyLower (s : String) : String :=
  (s.data.map Char.toLower).asString

/-! ## `.gitignore` chain resolution (`load_gitignore_patterns`) -/

/-- The upward loop of `load_gitignore_patterns`: starting at the scan
root, return the first directory (the scan root included) whose `.git`
subdirectory exists, walking to parents; the loop guard
`current_path.parent != current_path` stops *before* examining the
filesystem root itself. -/
def findGitRoot (env : Env) : List String → Option (List String)
  | [] => none
  | p@(_ :: _) => if env.hasGitDir p then some p else findGitRoot env p.dropLast
termination_by p => p.length
decreasing_by
  simp_all [List.length_dropLast]

/-- Python `\s` on strings (Unicode whitespace as matched by `re`). -/
def isPySpace (c : Char) : Bool :=
  c.val = 0x20 || c.val = 0x09 || c.val = 0x0A || c.val = 0x0D ||
  c.val = 0x0B || c.val = 0x0C ||
  (0x1C ≤ c.val && c.val ≤ 0x1F) || c.val = 0x85 || c.val = 0xA0 ||
  c.val = 0x1680 || (0x2000 ≤ c.val && c.val ≤ 0x200A) ||
  c.val = 0x2028 || c.val = 0x2029 || c.val = 0x202F ||
  c.val = 0x205F || c.val = 0x3000

/-- Python `str.strip()`: drop leading and trailing whitespace
(`str.isspace` matches the same character set as `\s`). -/
def pyStrip (s : String) : String :=
  (((s.data.dropWhile isPySpace).reverse.dropWhile isPySpace).reverse).asString

/-- `s.startswith('#')`. -/
def pyStartsWithHash (s : String) : Bool :=
  match s.data with
  | c :: _ => c = '#'
  | [] => false

/-- The line filter of the `with open(gitignore_file) ...` loop: strip
each line, keep it when non-blank and not starting with `#`. -/
def processIgnoreLines (lines : List String) : List String :=
  lines.foldl (fun acc line =>
    let s := pyStrip line
    if s ≠ "" ∧ pyStartsWithHash s = false then acc ++ [s] else acc) []

/-- Patterns contributed by the `.gitignore` of one directory (absent or
unreadable files contribute nothing — the `except IOError: pass`). -/
def gitignoreOf (env : Env) (p : List String) : List String :=
  match env.gitignoreLines p with
  | none => []
  | some lines => processIgnoreLines lines

/-- `p` is a strict ancestor of `q` (i.e. `p in q.parents` for absolute
paths: a proper prefix of the component list). -/
def isAncestorOf (p q : List String) : Bool :=
  decide (p.length < q.length) && decide (q.take p.length = p)

/-- The downward loop of `load_gitignore_patterns`:
`while search_path != root_path.parent and search_path in root_path.parents`
collect the patterns of `search_path / ".gitignore"`, then step to the
unique child of `search_path` among `root_path.parents` (the prefix one
component longer), breaking when no such parent exists. -/
def downWalk (env : Env) (rootPath : List String) (search : List String)
    (patterns : List String) : List String :=
  if h : (search ≠ rootPath.dropLast) ∧ isAncestorOf search rootPath = true then
    let pats := patterns ++ gitignoreOf env search
    if h2 : search.length + 1 < rootPath.length then
      downWalk env rootPath (rootPath.take (search.length + 1)) pats
    else pats
  else patterns
termination_by rootPath.length - search.length
decreasing_by
  simp [List.length_take]
  omega

/-- `load_gitignore_patterns(root_path)`: find the version-control root
by the upward walk, then run the downward collection loop from it;
without a version-control root the contribution is empty. -/
def load_gitignore_patterns (env : Env) (rootPath : List String) : List String :=
  match findGitRoot env rootPath with
  | none => []
  | some gr => downWalk env rootPath gr []

/-- The chain the specification describes, stated from its words: "walk
back downward from that root to `scan_root` inclusive, and for every
directory on that path that contains an ignore-file, read it ...
collecting the remaining lines as patterns, in root-to-leaf order".
Used to compare the code's resolver against the specified one. -/
def specChainPatterns (env : Env) (rootPath : List String) : List String :=
  match findGitRoot env rootPath with
  | none => []
  | some gr =>
    ((List.range (rootPath.length + 1 - gr.length)).map
      (fun i => rootPath.take (gr.length + i))).foldl
      (fun acc p => acc ++ gitignoreOf env p) []

/-! ## Content summaries (`ContentSummarizer`) -/

/-- The tagged summary attached to a file node: the Python code builds
dicts `{"imports", "local_imports", "definitions"}` (Python files),
`{"headers"}` (markdown / text), `{"preview"}` (fallback),
`{"error": msg}` (parse or read failure), or the plain string
`"Content omitted by user."`. -/
inductive Summary where
  | py (imports : List String) (localImports : List String) (definitions : List String)
  | md (headers : List String)
  | preview (lines : List String)
  | err (msg : String)
  | omitted
deriving DecidableEq, Repr

theorem pyStmt_sizeList_append (a b : List PyStmt) :
    PyStmt.sizeList (a ++ b) = PyStmt.sizeList a + PyStmt.sizeList b := by
  induction a with
  | nil => simp [PyStmt.sizeList]
  | cons s r ih => simp [PyStmt.sizeList, ih]; omega

theorem pyStmt_children_size_lt (s : PyStmt) :
    PyStmt.sizeList s.children < PyStmt.size s := by
  cases s <;> simp [PyStmt.children, PyStmt.size, PyStmt.sizeList] <;> omega

/-- `ast.walk` minus the initial `Module` node: breadth-first over a
queue seeded with the top-level statements, each visited node appending
its children to the queue (the Python implementation uses a `deque`
with `popleft`/`extend`). -/
def pyWalk : List PyStmt → List PyStmt
  | [] => []
  | s :: rest => s :: pyWalk (rest ++ s.children)
termination_by q => PyStmt.sizeList q
decreasing_by
  simp [pyStmt_sizeList_append, PyStmt.sizeList]
  have := pyStmt_children_size_lt s
  try omega

/-- One iteration of the `for node in ast.walk(tree)` loop: append to
the accumulated `imports` / `local_imports` / `definitions` lists
depending on the node kind.  Notes mirroring the source: a
relative import (`level > 0`) is rendered `"." + module` when the module is a
non-empty string and `"."` otherwise (Python truthiness of
`node.module`); an absolute `from x import ...` appends `node.module`
(which `ast.parse` guarantees to be a non-`None` string when
`level == 0`; `getD` supplies a placeholder for the unreachable case);
definitions are rendered `def name(...):` / `class name:`. -/
def pyStep (acc : List String × List String × List String) (n : PyStmt) :
    List String × List String × List String :=
  match n with
  | .importStmt names => (acc.1 ++ names, acc.2.1, acc.2.2)
  | .importFrom level mod =>
    if level > 0 then
      (acc.1, acc.2.1 ++ [match mod with
        | some m => if m = "" then "." else "." ++ m
        | none => "."], acc.2.2)
    else (acc.1 ++ [mod.getD ""], acc.2.1, acc.2.2)
  | .funcDef name _ => (acc.1, acc.2.1, acc.2.2 ++ ["def " ++ name ++ "(...):"])
  | .asyncFuncDef name _ => (acc.1, acc.2.1, acc.2.2 ++ ["def " ++ name ++ "(...):"])
  | .classDef name _ => (acc.1, acc.2.1, acc.2.2 ++ ["class " ++ name ++ ":"])
  | .other _ => acc

/-- `parse_python_file(content)`, over the outcome of the external
`ast.parse`: on `SyntaxError` the error summary, otherwise the three
lists accumulated over the full `ast.walk` traversal. -/
def parse_python_file (parsed : Except Unit (List PyStmt)) : Summary :=
  match parsed with
  | .error _ => .err "SyntaxError parsing file."
  | .ok stmts =>
    let r := (pyWalk stmts).foldl pyStep ([], [], [])
    .py r.1 r.2.1 r.2.2

/-- Attempt the regex `(#+)\s+(.*)` at the current position: a
non-empty run of `#`, a non-empty (greedy) run of whitespace — which,
like `\s`, may cross newlines — then the capture up to the next newline
(not consumed).  Returns the two captures and the rest of the input. -/
def mdTryMatch (cs : List Char) : Option (String × String × List Char) :=
  let hs := cs.takeWhile (· = '#')
  let r1 := cs.dropWhile (· = '#')
  if hs.isEmpty then none
  else
    let sp := r1.takeWhile isPySpace
    let r2 := r1.dropWhile isPySpace
    if sp.isEmpty then none
    else
      let txt := r2.takeWhile (· ≠ '\n')
      let r3 := r2.dropWhile (· ≠ '\n')
      some (hs.asString, txt.asString, r3)

theorem dropWhile_length_le (p : Char → Bool) (l : List Char) :
    (l.dropWhile p).length ≤ l.length := by
  induction l with
  | nil => simp
  | cons c r ih => by_cases h : p c <;> simp [List.dropWhile, h] <;> omega

theorem dropWhile_length_lt (p : Char → Bool) (l : List Char)
    (h : ¬ (l.takeWhile p).isEmpty) : (l.dropWhile p).length < l.length := by
  cases l with
  | nil => simp [List.takeWhile] at h
  | cons c r =>
    by_cases hc : p c
    · simp [List.dropWhile, hc]
      have := dropWhile_length_le p r
      omega
    · simp [List.takeWhile, hc] at h

theorem mdTryMatch_length (cs : List Char) (hs txt : String) (r3 : List Char)
    (h : mdTryMatch cs = some (hs, txt, r3)) : r3.length < cs.length := by
  unfold mdTryMatch at h
  by_cases h1 : (cs.takeWhile (· = '#')).isEmpty
  · simp [h1] at h
  · simp only [h1, if_false] at h
    by_cases h2 : ((cs.dropWhile (· = '#')).takeWhile isPySpace).isEmpty
    · simp [h2] at h
    · simp only [h2, if_false] at h
      simp at h
      obtain ⟨e1, e2, e3⟩ := h
      subst e3
      have l1 : (cs.dropWhile (· = '#')).length < cs.length :=
        dropWhile_length_lt _ _ (by simpa using h1)
      have l2 : ((cs.dropWhile (· = '#')).dropWhile isPySpace).length <
          (cs.dropWhile (· = '#')).length :=
        dropWhile_length_lt _ _ (by simpa using h2)
      exact lt_of_le_of_lt (dropWhile_length_le _ _) (lt_trans l2 l1)

/-- The scan loop of `re.findall(r'^(#+)\s+(.*)', content, re.MULTILINE)`:
try the pattern at every position where `^` holds (offset 0, or just
after a newline), collecting non-overlapping matches left to right and
resuming after each match (the resumption point is the unconsumed
newline, where `^` does not hold). -/
def mdFind (atStart : Bool) (l : List Char) : List (String × String) :=
  match l with
  | [] => []
  | c :: rest =>
    if atStart then
      match hm : mdTryMatch (c :: rest) with
      | some (hs, txt, r3) => (hs, txt) :: mdFind false r3
      | none => mdFind (c = '\n') rest
    else mdFind (c = '\n') rest
termination_by l.length
decreasing_by
  all_goals try (simp; done)
  have := mdTryMatch_length _ _ _ _ hm
  simpa using this

/-- `parse_markdown_file(content)`: each matched heading rendered as
`'  ' * (level - 1) + "- " + text`. -/
def parse_markdown_file (content : String) : Summary :=
  .md ((mdFind true content.data).map fun pr =>
    (List.replicate (2 * (pr.1.length - 1)) ' ').asString ++ "- " ++ pr.2)

/-- `SUPPORTED_DOCS_EXTENSIONS`. -/
def SUPPORTED_DOCS_EXTENSIONS : List String := [".md", ".txt"]

/-- `get_intelligent_summary(file_path, content_lines)`: dispatch on the
lower-cased suffix of the file name; the content is
`"\n".join(content_lines)`. -/
def get_intelligent_summary (env : Env) (filename : String)
    (content_lines : List String) : Summary :=
  let ext := pyLower (pySuffix filename)
  let content := String.intercalate "\n" content_lines
  if ext = ".py" then parse_python_file (env.pyParse content)
  else if ext ∈ SUPPORTED_DOCS_EXTENSIONS then parse_markdown_file content
  else .preview (content_lines.take 5)

/-! ## Reading file content

`open(entry_path, 'r', encoding='utf-8', errors='ignore')` followed by
`f.readlines(8192)`: decode the raw bytes as UTF-8 with invalid
sequences silently dropped (the `ignore` error handler skips the
maximal subpart of each ill-formed sequence), translate universal
newlines, split into lines keeping the terminators, and stop collecting
whole lines once the accumulated length reaches the hint. -/

/-- A UTF-8 continuation byte (`0x80..0xBF`). -/
def isContByte (b : Nat) : Bool := 0x80 ≤ b && b < 0xC0

/-- UTF-8 decoding with the `ignore` error handler: well-formed
sequences decode normally; for an ill-formed sequence its maximal valid
subpart is skipped and decoding resumes (lead bytes `0x80..0xC1` and
`0xF5..0xFF` are never valid; `0xE0`/`0xED`/`0xF0`/`0xF4` restrict the
second byte to exclude overlong forms, surrogates, and code points
beyond `U+10FFFF`); a truncated sequence at end of input is dropped. -/
def utf8DecodeIgnore : List Nat → List Char
  | [] => []
  | b :: r =>
    if h1 : b < 0x80 then Char.ofNat b :: utf8DecodeIgnore r
    else if b < 0xC2 then utf8DecodeIgnore r
    else if b < 0xE0 then
      match r with
      | [] => []
      | b2 :: r2 =>
        if isContByte b2 then
          Char.ofNat ((b - 0xC0) * 64 + (b2 - 0x80)) :: utf8DecodeIgnore r2
        else utf8DecodeIgnore (b2 :: r2)
    else if b < 0xF0 then
      match r with
      | [] => []
      | b2 :: r2 =>
        if (if b = 0xE0 then 0xA0 else 0x80) ≤ b2 ∧ b2 ≤ (if b = 0xED then 0x9F else 0xBF) then
          match r2 with
          | [] => []
          | b3 :: r3 =>
            if isContByte b3 then
              Char.ofNat ((b - 0xE0) * 4096 + (b2 - 0x80) * 64 + (b3 - 0x80)) ::
                utf8DecodeIgnore r3
            else utf8DecodeIgnore (b3 :: r3)
        else utf8DecodeIgnore (b2 :: r2)
    else if b < 0xF5 then
      match r with
      | [] => []
      | b2 :: r2 =>
        if (if b = 0xF0 then 0x90 else 0x80) ≤ b2 ∧ b2 ≤ (if b = 0xF4 then 0x8F else 0xBF) then
          match r2 with
          | [] => []
          | b3 :: r3 =>
            if isContByte b3 then
              match r3 with
              | [] => []
              | b4 :: r4 =>
                if isContByte b4 then
                  Char.ofNat ((b - 0xF0) * 262144 + (b2 - 0x80) * 4096 +
                    (b3 - 0x80) * 64 + (b4 - 0x80)) :: utf8DecodeIgnore r4
                else utf8DecodeIgnore (b4 :: r4)
            else utf8DecodeIgnore (b3 :: r3)
        else utf8DecodeIgnore (b2 :: r2)
    else utf8DecodeIgnore r
termination_by l => l.length
decreasing_by all_goals (simp_all; try omega)

/-- Universal-newline translation of text mode: `\r\n` and lone `\r`
become `\n`. -/
def translateNewlines : List Char → List Char
  | [] => []
  | '\r' :: '\n' :: r => '\n' :: translateNewlines r
  | '\r' :: r => '\n' :: translateNewlines r
  | c :: r => c :: translateNewlines r

/-- Accumulating splitter: emit a line (keeping the `\n`) at every
newline; the final unterminated fragment, if non-empty, is yielded
too. -/
def splitLinesAux (acc : List Char) : List Char → List String
  | [] => if acc.isEmpty then [] else [acc.reverse.asString]
  | c :: r =>
    if c = '\n' then (acc.reverse ++ ['\n']).asString :: splitLinesAux [] r
    else splitLinesAux (c :: acc) r

/-- Split text into lines, each keeping its terminating `\n`; a final
fragment without a terminator is still yielded. -/
def splitLinesKeepEnds (l : List Char) : List String :=
  splitLinesAux [] l

/-- `IOBase.readlines(hint)`: collect whole lines, stopping after the
line at which the accumulated character count reaches the hint. -/
def takeLinesHint (hint : Nat) (n : Nat) : List String → List String
  | [] => []
  | l :: ls =>
    l :: (if n + l.length ≥ hint then [] else takeLinesHint hint (n + l.length) ls)

/-- The full content pipeline for one readable file: decode bytes with
errors ignored, translate newlines, `readlines(8192)`. -/
def readContentLines (content : List Nat) : List String :=
  takeLinesHint 8192 0 (splitLinesKeepEnds (translateNewlines (utf8DecodeIgnore content)))

/-! ## The filesystem model and the walker (`map_directory`) -/

/-- A filesystem entry as the walker can observe it.  For a file,
`stat` is `some (st_mtime, st_size)` or `none` when `entry.stat()`
raises; `readable` tells whether `open(...)` + reading succeeds;
`content` is the raw bytes.  For a directory, `stat` is the mtime (or
`none` when statting raises) and `listable` tells whether `os.scandir`
succeeds on it. -/
inductive FSEntry where
  | file (name : String) (stat : Option (Int × Nat)) (readable : Bool) (content : List Nat)
  | dir (name : String) (stat : Option Int) (listable : Bool) (entries : List FSEntry)

/-- `entry.name`. -/
def FSEntry.name : FSEntry → String
  | .file n _ _ _ => n
  | .dir n _ _ _ => n

/-- `entry.is_file()`. -/
def FSEntry.isFile : FSEntry → Bool
  | .file _ _ _ _ => true
  | .dir _ _ _ _ => false

/-- `entry.is_dir()`. -/
def FSEntry.isDir : FSEntry → Bool
  | .file _ _ _ _ => false
  | .dir _ _ _ _ => true

/-- The outcome of `entry.stat()`: `(st_mtime, st_size)` (the size of a
directory entry is never consulted by the code, so it is reported as 0
there), or `none` when the call raises. -/
def FSEntry.statInfo : FSEntry → Option (Int × Nat)
  | .file _ st _ _ => st
  | .dir _ st _ _ => st.map (fun m => (m, 0))

/-- A node of the output tree: the dicts the walker builds.  The root
directory node carries no `mtime` key (it is created before the loop),
hence the `Option`. -/
inductive Node where
  | dir (name : String) (path : String) (mtime : Option Int) (children : List Node)
  | file (name : String) (path : String) (mtime : Int) (size : Nat) (summary : Summary)

/-- `node["name"]`. -/
def Node.name : Node → String
  | .dir n _ _ _ => n
  | .file n _ _ _ _ => n

/-- Whether the node has `"type": "file"`. -/
def Node.isFile : Node → Bool
  | .dir _ _ _ _ => false
  | .file _ _ _ _ _ => true

/-- The `stats` dictionary (the `tokens` counter is initialised and
never touched by `map_directory`). -/
structure Stats where
  files : Nat
  dirs : Nat
  size : Nat
  tokens : Nat
  skipped : Nat
deriving DecidableEq, Repr

/-- The persisted cache: a mapping from absolute path strings to
`{"mtime": m, "node": n}`, embedded as an association list with unique
keys (Python `dict` semantics: `cacheLookup` finds the binding,
`cacheInsert` overwrites in place or appends). -/
def Cache : Type := List (String × Int × Node)

/-- `cache[k]` if present. -/
def cacheLookup (c : Cache) (k : String) : Option (Int × Node) :=
  match c with
  | [] => none
  | (k', m, n) :: r => if k' = k then some (m, n) else cacheLookup r k

/-- `cache[k] = v`. -/
def cacheInsert (c : Cache) (k : String) (v : Int × Node) : Cache :=
  match c with
  | [] => [(k, v.1, v.2)]
  | (k', m, n) :: r => if k' = k then (k, v.1, v.2) :: r else (k', m, n) :: cacheInsert r k v

/-- The configuration surface `map_directory` reads from `args`. -/
structure Args where
  ignore : List String
  use_gitignore : Bool
  depth : Option Nat
  use_cache : Bool
  no_content : Bool

/-- `base_ignore`. -/
def base_ignore : List String := [".git", ".vscode", "__pycache__", "node_modules", "venv"]

/-- `depth is not None and d >= depth`. -/
def depthCut (dOpt : Option Nat) (d : Nat) : Bool :=
  match dOpt with
  | some dd => decide (dd ≤ d)
  | none => false

/-- The sort key comparison of
`sorted(os.scandir(...), key=lambda e: (e.is_file(), e.name.lower()))`:
lexicographic on the pair, `False < True`, names compared lower-cased
(Python string comparison is code-point lexicographic, as is Lean's;
`str.lower` and `String.toLower` agree on ASCII). -/
def entryLE (a b : FSEntry) : Bool :=
  (!a.isFile && b.isFile) ||
  (a.isFile == b.isFile && decide (pyLower a.name ≤ pyLower b.name))

/-- Insert an element into a sorted list, after every element that
compares `≤` to it (so elements with equal keys keep their original
relative order). -/
def insertSortedStable (x : FSEntry) : List FSEntry → List FSEntry
  | [] => [x]
  | y :: ys => if entryLE y x then y :: insertSortedStable x ys else x :: y :: ys

/-- `sorted(entries, key=lambda e: (e.is_file(), e.name.lower()))`:
Python's `sorted` is a *stable* sort, and stable sorts by a total
preorder all produce the same list, so a stable insertion sort is an
exact embedding of it. -/
def sortEntries (es : List FSEntry) : List FSEntry :=
  es.foldl (fun acc e => insertSortedStable e acc) []

mutual

/-- Structural size of a filesystem entry (termination measure). -/
def fsSize : FSEntry → Nat
  | .file _ _ _ _ => 1
  | .dir _ _ _ es => 1 + fsSizeList es

/-- Total structural size of an entry list. -/
def fsSizeList : List FSEntry → Nat
  | [] => 0
  | e :: r => fsSize e + fsSizeList r

end

theorem fsSize_pos (e : FSEntry) : 0 < fsSize e := by
  cases e <;> simp [fsSize]

theorem fsSizeList_eq_sum (l : List FSEntry) : fsSizeList l = (l.map fsSize).sum := by
  induction l with
  | nil => simp [fsSizeList]
  | cons e r ih => simp [fsSizeList, ih]

theorem fsSizeList_insertSortedStable (x : FSEntry) (l : List FSEntry) :
    fsSizeList (insertSortedStable x l) = fsSize x + fsSizeList l := by
  induction l with
  | nil => simp [insertSortedStable, fsSizeList]
  | cons y ys ih =>
    by_cases h : entryLE y x = true <;>
      simp [insertSortedStable, h, fsSizeList, ih] <;> omega

theorem fsSizeList_foldl_insert (l acc : List FSEntry) :
    fsSizeList (l.foldl (fun a e => insertSortedStable e a) acc) =
      fsSizeList l + fsSizeList acc := by
  induction l generalizing acc with
  | nil => simp [fsSizeList]
  | cons e es ih =>
    simp [List.foldl, ih, fsSizeList_insertSortedStable, fsSizeList]
    omega

theorem fsSizeList_sortEntries (l : List FSEntry) :
    fsSizeList (sortEntries l) = fsSizeList l := by
  simp [sortEntries, fsSizeList_foldl_insert, fsSizeList]

theorem fsSize_le_of_mem {e : FSEntry} {l : List FSEntry} (h : e ∈ l) :
    fsSize e ≤ fsSizeList l := by
  induction l with
  | nil => simp at h
  | cons x r ih =>
    rcases List.mem_cons.mp h with h1 | h2
    · subst h1; simp [fsSizeList]
    · have := ih h2; simp [fsSizeList]; omega

theorem fsSizeList_filter_le (p : FSEntry → Bool) (l : List FSEntry) :
    fsSizeList (l.filter p) ≤ fsSizeList l := by
  induction l with
  | nil => simp
  | cons x r ih =>
    by_cases h : p x = true <;> simp [List.filter, h, fsSizeList] <;> omega

/-- The cache consultation of the walker for one entry: with
`use_cache` enabled, a binding for this exact path whose stored mtime
equals the entry's current mtime yields the stored node. -/
def cacheHit (useCache : Bool) (cache : Cache) (key : String) (mtime : Int) : Option Node :=
  if useCache then
    match cacheLookup cache key with
    | some (m, n) => if m = mtime then some n else none
    | none => none
  else none

mutual

/-- The per-entry body of the walker's `for entry in entries` loop
(stateful on `(stats, cache)`; the emitted node, if any, is appended to
the parent's `children`).  In order: the ignore check (skip + count),
`entry.stat()` (whose failure propagates — it sits outside every
`try`), the cache consultation (on a hit the cached node is reused
verbatim, no counters are touched, and the identical binding is
re-stored), and otherwise fresh node construction.  A fresh directory
node is pushed on the work stack: when later popped, a depth at or
beyond `args.depth` or a failing `os.scandir` leaves it with zero
children, otherwise its sorted entries are processed with the same
state — the stack scheduling of the Python loop is re-associated here
into direct recursion, which yields the same tree, the same final
`stats` (all updates are commutative additions) and the same final
cache (each path is visited at most once per scan, and the node dict
stored at its creation is the same object the children are later added
to, so the Python cache too ends up holding the completed node). -/
def walkEntry (env : Env) (args : Args) (patterns : List String)
    (parentPath : List String) (depth : Nat) (e : FSEntry)
    (stats : Stats) (cache : Cache) : Except Unit (Option Node × Stats × Cache) :=
  let entryPath := parentPath ++ [e.name]
  if should_ignore e.name (pathStr entryPath) patterns then
    .ok (none, { stats with skipped := stats.skipped + 1 }, cache)
  else
    match e.statInfo with
    | none => .error ()
    | some (mod_time, size) =>
      match cacheHit args.use_cache cache (pathStr entryPath) mod_time with
      | some n =>
        .ok (some n, stats, cacheInsert cache (pathStr entryPath) (mod_time, n))
      | none =>
        match e with
        | .dir name _ listable entries =>
          let stats1 := { stats with dirs := stats.dirs + 1 }
          let childResult :=
            if depthCut args.depth (depth + 1) then Except.ok ([], stats1, cache)
            else if !listable then Except.ok ([], stats1, cache)
            else walkEntries env args patterns entryPath (depth + 1)
              (sortEntries entries) stats1 cache
          match childResult with
          | .error u => .error u
          | .ok (children, stats2, cache2) =>
            let node := Node.dir name (pathStr entryPath) (some mod_time) children
            let cache3 := if args.use_cache
              then cacheInsert cache2 (pathStr entryPath) (mod_time, node) else cache2
            .ok (some node, stats2, cache3)
        | .file name _ readable content =>
          let summary :=
            if args.no_content then Summary.omitted
            else if readable then get_intelligent_summary env name (readContentLines content)
            else Summary.err "Could not read or parse file."
          let node := Node.file name (pathStr entryPath) mod_time size summary
          let stats1 := { stats with files := stats.files + 1, size := stats.size + size }
          let cache1 := if args.use_cache
            then cacheInsert cache (pathStr entryPath) (mod_time, node) else cache
          .ok (some node, stats1, cache1)
termination_by (fsSize e, 0)
decreasing_by
  apply Prod.Lex.left
  rw [fsSizeList_sortEntries]
  simp [fsSize]

/-- Fold `walkEntry` over the (already sorted) entries of a directory,
threading `(stats, cache)` and collecting the emitted children in
order. -/
def walkEntries (env : Env) (args : Args) (patterns : List String)
    (parentPath : List String) (depth : Nat) :
    List FSEntry → Stats → Cache → Except Unit (List Node × Stats × Cache)
  | [], stats, cache => .ok ([], stats, cache)
  | e :: es, stats, cache =>
    match walkEntry env args patterns parentPath depth e stats cache with
    | .error u => .error u
    | .ok (n?, stats1, cache1) =>
      match walkEntries env args patterns parentPath depth es stats1 cache1 with
      | .error u => .error u
      | .ok (ns, stats2, cache2) => .ok (n?.toList ++ ns, stats2, cache2)
termination_by l _ _ => (fsSizeList l, 1)
decreasing_by
  · apply Prod.Lex.right'
    · simp [fsSizeList]
    · omega
  · apply Prod.Lex.left
    have := fsSize_pos e
    simp [fsSizeList]
    omega

end

mutual

/-- The pre-pass `for dirpath, dirnames, filenames in os.walk(...)`
(run only for the `skipped` counter and the progress-bar total): at
each visited directory, subdirectories whose *bare name* matches an
ignore pattern (`should_ignore(Path(d), ...)` — both the name and the
string form of `Path(d)` are just `d`) are pruned and counted; if the
directory's depth is at or beyond `args.depth`, the remaining
subdirectories are counted as skipped and not descended into.  Files
are never counted here.  A directory `os.scandir` fails on yields no
triple (the default `onerror=None` swallows the error), contributing
nothing. -/
def prePassSkipped (patterns : List String) (dOpt : Option Nat) (depth : Nat) :
    FSEntry → Nat
  | .file _ _ _ _ => 0
  | .dir _ _ listable entries =>
    if !listable then 0
    else
      let subdirs := entries.filter (fun x => x.isDir)
      let kept := subdirs.filter (fun d => !should_ignore d.name d.name patterns)
      let ignoredCount := subdirs.length - kept.length
      if depthCut dOpt depth then ignoredCount + kept.length
      else ignoredCount + prePassList patterns dOpt (depth + 1) kept
termination_by e => (fsSize e, 0)
decreasing_by
  apply Prod.Lex.left
  unfold_let kept subdirs
  refine lt_of_le_of_lt (le_trans (fsSizeList_filter_le _ _) (fsSizeList_filter_le _ _)) ?_
  simp [fsSize]

/-- Sum of the pre-pass contributions over the kept subdirectories (the
recursive `os.walk` descent). -/
def prePassList (patterns : List String) (dOpt : Option Nat) (depth : Nat) :
    List FSEntry → Nat
  | [] => 0
  | e :: es => prePassSkipped patterns dOpt depth e + prePassList patterns dOpt depth es
termination_by l => (fsSizeList l, 1)
decreasing_by
  · apply Prod.Lex.right'
    · simp [fsSizeList]
    · omega
  · apply Prod.Lex.left
    simp [fsSizeList, lt_add_iff_pos_left, fsSize_pos]

end

/-- `map_directory(root_path, args, cache)`: build the effective
pattern set (explicit patterns, `base_ignore`, and — with
`args.use_gitignore` — the `.gitignore` chain; Python forms a `set`,
whose iteration order `should_ignore` is insensitive to, so a
concatenation is an equivalent embedding), run the `os.walk` pre-pass
for the initial `skipped` count, then process the root directory
exactly like a popped stack element: not expanded when `0 >=
args.depth` or when listing it fails.  The root node carries no mtime
and is never cached.  Returns `Except.error` when an unguarded
`entry.stat()` raises somewhere below. -/
def map_directory (env : Env) (rootPath : List String) (root : FSEntry)
    (args : Args) (cache : Cache) : Except Unit (Node × Stats × Cache) :=
  let gitignore_patterns :=
    if args.use_gitignore then load_gitignore_patterns env rootPath else []
  let patterns := args.ignore ++ base_ignore ++ gitignore_patterns
  let stats0 : Stats :=
    { files := 0, dirs := 0, size := 0, tokens := 0,
      skipped := prePassSkipped patterns args.depth 0 root }
  let childResult :=
    if depthCut args.depth 0 then Except.ok ([], stats0, cache)
    else match root with
      | .dir _ _ listable entries =>
        if !listable then Except.ok ([], stats0, cache)
        else walkEntries env args patterns rootPath 0
          (sortEntries entries) stats0 cache
      | .file _ _ _ _ => Except.ok ([], stats0, cache)
  match childResult with
  | .error u => .error u
  | .ok (children, stats, cache1) =>
    .ok (Node.dir (rootPath.getLastD "") (pathStr rootPath) none children, stats, cache1)

/-! ## Derived notions used to state the checked properties -/

/-- The node `map_directory` builds for a fresh (cache-miss) file entry:
name, path, current mtime, stat size, and the summary — omitted content,
the intelligent summary of the read lines, or the read-error summary. -/
def freshFileNode (env : Env) (args : Args) (parentPath : List String)
    (name : String) (mt : Int) (sz : Nat) (readable : Bool) (content : List Nat) : Node :=
  Node.file name (pathStr (parentPath ++ [name])) mt sz
    (if args.no_content then Summary.omitted
     else if readable then get_intelligent_summary env name (readContentLines content)
     else Summary.err "Could not read or parse file.")

/-- The child-ordering key of §4.2 read off an emitted node:
`(is_file, lowercase name)`, compared lexicographically. -/
def nodeKeyLE (a b : Node) : Bool :=
  (!a.isFile && b.isFile) ||
  (a.isFile == b.isFile && decide (pyLower a.name ≤ pyLower b.name))

/-- Adjacent-pairs ordering check: the list is sorted by `nodeKeyLE`. -/
def sortedNodeList : List Node → Bool
  | [] => true
  | [_] => true
  | a :: b :: r => nodeKeyLE a b && sortedNodeList (b :: r)

mutual

/-- Every directory node in this subtree has its children sorted by
`(is_file, lowercase name)`. -/
def sortedChildren : Node → Bool
  | .file _ _ _ _ _ => true
  | .dir _ _ _ cs => sortedNodeList cs && sortedChildrenList cs

/-- `sortedChildren` for every node of a list. -/
def sortedChildrenList : List Node → Bool
  | [] => true
  | c :: cs => sortedChildren c && sortedChildrenList cs

end

mutual

/-- Height of an output tree: the largest node depth relative to this
node (a node at depth `k` below the root witnesses `nodeHeight ≥ k`). -/
def nodeHeight : Node → Nat
  | .file _ _ _ _ _ => 0
  | .dir _ _ _ cs => nodeHeightList cs

/-- `max (1 + nodeHeight c)` over the list (0 when empty). -/
def nodeHeightList : List Node → Nat
  | [] => 0
  | c :: cs => max (1 + nodeHeight c) (nodeHeightList cs)

end

mutual

/-- Every entry of the subtree can be statted (`entry.stat()` does not
raise anywhere). -/
def allStatsOk : FSEntry → Bool
  | .file _ st _ _ => st.isSome
  | .dir _ st _ es => st.isSome && allStatsOkList es

/-- `allStatsOk` over a list of entries. -/
def allStatsOkList : List FSEntry → Bool
  | [] => true
  | e :: es => allStatsOk e && allStatsOkList es

end

/-- Whether an `Except Unit` computation succeeded (no exception
escaped). -/
def isOkB {α : Type _} : Except Unit α → Bool
  | .ok _ => true
  | .error _ => false

/-- The `imports` contribution of one walked AST node. -/
def pyImports : PyStmt → List String
  | .importStmt names => names
  | .importFrom level mod => if level > 0 then [] else [mod.getD ""]
  | _ => []

/-- The `local_imports` contribution of one walked AST node. -/
def pyLocalImports : PyStmt → List String
  | .importFrom level mod =>
    if level > 0 then
      [match mod with
       | some m => if m = "" then "." else "." ++ m
       | none => "."]
    else []
  | _ => []

/-- The `definitions` contribution of one walked AST node. -/
def pyDefs : PyStmt → List String
  | .funcDef name _ => ["def " ++ name ++ "(...):"]
  | .asyncFuncDef name _ => ["def " ++ name ++ "(...):"]
  | .classDef name _ => ["class " ++ name ++ ":"]
  | _ => []

/-- The definition list the specification describes, stated from its
words: "exactly the top-level function, async-function, and class
definitions" — i.e. the contributions of the top-level statements only,
with no descent into nested bodies. -/
def specTopLevelDefinitions (stmts : List PyStmt) : List String :=
  stmts.flatMap pyDefs

/-- The data of one sibling file in the cache-invalidation scenario of
§8: its name and the filesystem state backing it. -/
structure FileSpec where
  name : String
  mt : Int
  sz : Nat
  readable : Bool
  content : List Nat

/-- The filesystem entry of a `FileSpec` (a statting, plain file). -/
def FileSpec.entry (f : FileSpec) : FSEntry :=
  .file f.name (some (f.mt, f.sz)) f.readable f.content

/-- A neutral environment for concrete scenarios: no version-control
root anywhere, no ignore-files, a parser that rejects everything. -/
def cEnv : Env :=
  { hasGitDir := fun _ => false, gitignoreLines := fun _ => none,
    pyParse := fun _ => .error () }

/-- Concrete environment: the scan root `/r` is itself the git root and
carries a `.gitignore` holding the single pattern `foo`. -/
def envGitAtRoot : Env :=
  { hasGitDir := fun p => p == ["r"],
    gitignoreLines := fun p => if p == ["r"] then some ["foo"] else none,
    pyParse := fun _ => .error () }

/-- Concrete environment: scanning `/a/b/c` inside a repository rooted
at `/a`, with a `.gitignore` in every directory on the chain. -/
def envGitAbove : Env :=
  { hasGitDir := fun p => p == ["a"],
    gitignoreLines := fun p =>
      if p == ["a"] then some ["pa"]
      else if p == ["a", "b"] then some ["pb"]
      else if p == ["a", "b", "c"] then some ["pc"] else none,
    pyParse := fun _ => .error () }

/-! ## Lemmas about the cache store and single walker steps -/

theorem cacheHit_eq_some {cache : Cache} {k : String} {mt : Int} {n : Node} :
    cacheHit true cache k mt = some n ↔ cacheLookup cache k = some (mt, n) := by
  unfold cacheHit
  cases h : cacheLookup cache k with
  | none => simp
  | some v =>
    obtain ⟨m, n'⟩ := v
    by_cases hm : m = mt
    · subst hm; simp
    · simp [hm]

theorem cacheHit_false (cache : Cache) (k : String) (mt : Int) :
    cacheHit false cache k mt = none := by
  simp [cacheHit]

theorem cacheInsert_self {cache : Cache} {k : String} {mt : Int} {n : Node}
    (h : cacheLookup cache k = some (mt, n)) : cacheInsert cache k (mt, n) = cache := by
  induction cache with
  | nil => simp [cacheLookup] at h
  | cons b r ih =>
    obtain ⟨k', m', n'⟩ := b
    by_cases hk : k' = k
    · subst hk
      simp [cacheLookup] at h
      simp [cacheInsert, h.1, h.2]
    · simp [cacheLookup, hk] at h
      simp [cacheInsert, hk, ih h]

theorem cacheLookup_insert_ne {cache : Cache} {k k' : String} {v : Int × Node}
    (h : k ≠ k') : cacheLookup (cacheInsert cache k v) k' = cacheLookup cache k' := by
  induction cache with
  | nil => simp [cacheInsert, cacheLookup, h]
  | cons b r ih =>
    obtain ⟨k0, m0, n0⟩ := b
    by_cases hk : k0 = k
    · subst hk; simp [cacheInsert, cacheLookup, h, ih]
    · simp [cacheInsert, hk, cacheLookup, ih]

theorem foldl_strAppend (p : List String) (acc : String) :
    p.foldl (fun acc c => acc ++ "/" ++ c) acc =
      acc ++ p.foldl (fun acc c => acc ++ "/" ++ c) "" := by
  induction p generalizing acc with
  | nil => simp
  | cons x r ih =>
    simp only [List.foldl_cons]
    rw [ih (acc ++ "/" ++ x), ih ("" ++ "/" ++ x)]
    simp [String.append_assoc]

theorem pathStr_append_one (p : List String) (a : String) :
    pathStr (p ++ [a]) = (match p with | [] => "/" | _ => pathStr p ++ "/") ++ a := by
  match p with
  | [] => simp [pathStr]
  | x :: r =>
    show List.foldl _ "" (x :: (r ++ [a])) = _
    simp only [List.foldl_cons, List.foldl_append, List.foldl]
    simp [pathStr]

theorem string_append_right_cancel {s a b : String} (h : s ++ a = s ++ b) : a = b := by
  have hd : (s ++ a).data = (s ++ b).data := by rw [h]
  simp only [String.data_append] at hd
  have := List.append_cancel_left hd
  cases a; cases b; exact congrArg String.mk this

theorem pathStr_one_inj {p : List String} {a b : String}
    (h : pathStr (p ++ [a]) = pathStr (p ++ [b])) : a = b := by
  rw [pathStr_append_one, pathStr_append_one] at h
  exact string_append_right_cancel h

/-- The ignore branch of the per-entry loop: skip, count, touch nothing
else. -/
theorem walkEntry_ignored (env : Env) (args : Args) (patterns : List String)
    (pp : List String) (k : Nat) (e : FSEntry) (stats : Stats) (cache : Cache)
    (h : should_ignore e.name (pathStr (pp ++ [e.name])) patterns = true) :
    walkEntry env args patterns pp k e stats cache =
      .ok (none, { stats with skipped := stats.skipped + 1 }, cache) := by
  rw [walkEntry]
  simp [h]

/-- The stat of a non-ignored entry raising propagates out of the
walker. -/
theorem walkEntry_stat_raises (env : Env) (args : Args) (patterns : List String)
    (pp : List String) (k : Nat) (e : FSEntry) (stats : Stats) (cache : Cache)
    (h : should_ignore e.name (pathStr (pp ++ [e.name])) patterns = false)
    (h2 : e.statInfo = none) :
    walkEntry env args patterns pp k e stats cache = .error () := by
  rw [walkEntry]
  simp [h, h2]

/-- The cache-hit branch: the cached node is returned verbatim, the
stats are untouched, and re-storing the identical binding leaves the
cache unchanged.  The conclusion does not depend on the entry's
contents, listability or readability: nothing is re-read, re-listed or
re-summarized. -/
theorem walkEntry_cache_hit (env : Env) (args : Args) (patterns : List String)
    (pp : List String) (k : Nat) (e : FSEntry) (stats : Stats) (cache : Cache)
    (mt : Int) (sz : Nat) (n : Node)
    (huc : args.use_cache = true)
    (h : should_ignore e.name (pathStr (pp ++ [e.name])) patterns = false)
    (h2 : e.statInfo = some (mt, sz))
    (h3 : cacheLookup cache (pathStr (pp ++ [e.name])) = some (mt, n)) :
    walkEntry env args patterns pp k e stats cache = .ok (some n, stats, cache) := by
  rw [walkEntry]
  simp only [h, h2, huc]
  rw [show cacheHit true cache (pathStr (pp ++ [e.name])) mt = some n from
    cacheHit_eq_some.mpr h3]
  simp [cacheInsert_self h3]

/-- The fresh-file branch (cache miss or caching disabled): the node is
rebuilt from the filesystem and the `files`/`size` counters advance. -/
theorem walkEntry_file_fresh (env : Env) (args : Args) (patterns : List String)
    (pp : List String) (k : Nat) (name : String) (mt : Int) (sz : Nat)
    (rd : Bool) (ct : List Nat) (stats : Stats) (cache : Cache)
    (h : should_ignore name (pathStr (pp ++ [name])) patterns = false)
    (h3 : cacheHit args.use_cache cache (pathStr (pp ++ [name])) mt = none) :
    walkEntry env args patterns pp k (.file name (some (mt, sz)) rd ct) stats cache =
      .ok (some (freshFileNode env args pp name mt sz rd ct),
        { stats with files := stats.files + 1, size := stats.size + sz },
        if args.use_cache then
          cacheInsert cache (pathStr (pp ++ [name]))
            (mt, freshFileNode env args pp name mt sz rd ct)
        else cache) := by
  rw [walkEntry]
  simp [FSEntry.name, FSEntry.statInfo, h, h3, freshFileNode]

/-- A fresh directory at or beyond the depth limit: it is emitted with
zero children (not expanded), only `dirs` advances. -/
theorem walkEntry_dir_cut (env : Env) (args : Args) (patterns : List String)
    (pp : List String) (k : Nat) (name : String) (mt : Int) (li : Bool)
    (es : List FSEntry) (stats : Stats) (cache : Cache)
    (h : should_ignore name (pathStr (pp ++ [name])) patterns = false)
    (h3 : cacheHit args.use_cache cache (pathStr (pp ++ [name])) mt = none)
    (hcut : depthCut args.depth (k + 1) = true) :
    walkEntry env args patterns pp k (.dir name (some mt) li es) stats cache =
      .ok (some (Node.dir name (pathStr (pp ++ [name])) (some mt) []),
        { stats with dirs := stats.dirs + 1 },
        if args.use_cache then
          cacheInsert cache (pathStr (pp ++ [name]))
            (mt, Node.dir name (pathStr (pp ++ [name])) (some mt) [])
        else cache) := by
  rw [walkEntry]
  simp [FSEntry.name, FSEntry.statInfo, h, h3, hcut]

/-- A fresh directory whose listing fails (`PermissionError` /
`FileNotFoundError` in `os.scandir`): treated as having zero children,
the scan continues. -/
theorem walkEntry_dir_unlistable (env : Env) (args : Args) (patterns : List String)
    (pp : List String) (k : Nat) (name : String) (mt : Int)
    (es : List FSEntry) (stats : Stats) (cache : Cache)
    (h : should_ignore name (pathStr (pp ++ [name])) patterns = false)
    (h3 : cacheHit args.use_cache cache (pathStr (pp ++ [name])) mt = none)
    (hcut : depthCut args.depth (k + 1) = false) :
    walkEntry env args patterns pp k (.dir name (some mt) false es) stats cache =
      .ok (some (Node.dir name (pathStr (pp ++ [name])) (some mt) []),
        { stats with dirs := stats.dirs + 1 },
        if args.use_cache then
          cacheInsert cache (pathStr (pp ++ [name]))
            (mt, Node.dir name (pathStr (pp ++ [name])) (some mt) [])
        else cache) := by
  rw [walkEntry]
  simp [FSEntry.name, FSEntry.statInfo, h, h3, hcut]

theorem foldl_pyStep (nodes : List PyStmt) (a b c : List String) :
    nodes.foldl pyStep (a, b, c) =
      (a ++ nodes.flatMap pyImports, b ++ nodes.flatMap pyLocalImports,
        c ++ nodes.flatMap pyDefs) := by
  induction nodes generalizing a b c with
  | nil => simp
  | cons n ns ih =>
    cases n with
    | importFrom level mod =>
      by_cases hl : level > 0 <;>
        simp [pyStep, pyImports, pyLocalImports, pyDefs, hl, ih]
    | _ => simp [pyStep, pyImports, pyLocalImports, pyDefs, ih]

/-! ## The claims -/

/-- C2 (counterexample): with caching enabled, a second scan over an
unchanged one-file tree — the cache holding a binding for `/r/a` with
the matching mtime 10 — reuses the cached node verbatim but leaves
*every* stats counter at zero: `files` is not incremented for the
cache-hit file, contradicting the claim that the walker "still
increments the stats counters corresponding to the node's kind". -/
theorem C2_cache_hit_stats_counterexample :
    map_directory cEnv ["r"] (.dir "r" (some 1) true [.file "a" (some (10, 7)) true []])
      { ignore := [], use_gitignore := false, depth := none,
        use_cache := true, no_content := false }
      [("/r/a", 10, Node.file "a" "/r/a" 10 7 (Summary.preview []))] =
      .ok (Node.dir "r" "/r" none [Node.file "a" "/r/a" 10 7 (Summary.preview [])],
        { files := 0, dirs := 0, size := 0, tokens := 0, skipped := 0 },
        [("/r/a", 10, Node.file "a" "/r/a" 10 7 (Summary.preview []))]) ∧
    ({ files := 0, dirs := 0, size := 0, tokens := 0, skipped := 0 } : Stats).files ≠ 1 := by
  constructor
  · simp [map_directory, cEnv, walkEntry, walkEntries, prePassSkipped, prePassList,
      should_ignore, base_ignore, fnmatch, globMatch, pathStr, depthCut, sortEntries,
      insertSortedStable, entryLE, FSEntry.name, FSEntry.isFile, FSEntry.isDir,
      FSEntry.statInfo, cacheLookup, cacheInsert, cacheHit, List.filter, List.foldl,
      load_gitignore_patterns]
  · decide

/-- C2 (amended): for every entry reached with `use_cache` enabled
whose cached mtime equals the current one, the walker reuses the cached
node verbatim — no content re-read, no re-listing, no re-summarization
(the conclusion is independent of the entry's contents, readability and
listability) — the cache is left unchanged, and *no* stats counter is
updated for the reused node (contrary to the claim as stated). -/
theorem C2_cache_hit_amended (env : Env) (args : Args) (patterns : List String)
    (pp : List String) (k : Nat) (e : FSEntry) (stats : Stats) (cache : Cache)
    (mt : Int) (sz : Nat) (n : Node)
    (huc : args.use_cache = true)
    (h : should_ignore e.name (pathStr (pp ++ [e.name])) patterns = false)
    (h2 : e.statInfo = some (mt, sz))
    (h3 : cacheLookup cache (pathStr (pp ++ [e.name])) = some (mt, n)) :
    walkEntry env args patterns pp k e stats cache = .ok (some n, stats, cache) :=
  walkEntry_cache_hit env args patterns pp k e stats cache mt sz n huc h h2 h3

/-- C2 (witness): a concrete cache hit — the stored node (even a
blatantly stale one) is returned as is, the stats stay `⟨1, 2, 3, 4, 5⟩`,
the cache is unchanged, and the file's junk content is never read. -/
theorem C2_cache_hit_amended_witness :
    walkEntry cEnv
      { ignore := [], use_gitignore := false, depth := none,
        use_cache := true, no_content := false }
      [] ["r"] 0 (.file "a" (some (10, 7)) true [0xFF, 0xFE])
      ⟨1, 2, 3, 4, 5⟩ [("/r/a", 10, Node.file "zz" "/old" 9 1 (Summary.err "x"))] =
      .ok (some (Node.file "zz" "/old" 9 1 (Summary.err "x")), ⟨1, 2, 3, 4, 5⟩,
        [("/r/a", 10, Node.file "zz" "/old" 9 1 (Summary.err "x"))]) :=
  C2_cache_hit_amended cEnv _ [] ["r"] 0 _ ⟨1, 2, 3, 4, 5⟩ _ 10 7 _
    rfl (by rfl) rfl (by rfl)

/-- C3: the `.gitignore` chain resolver never reads the ignore-file of
the scan root itself, nor of the scan root's parent: when the scan root
`/r` is the repository root and holds a `.gitignore` with pattern
`foo`, the code returns no patterns at all, while the specified chain
("from that root down to `scan_root` inclusive") yields `["foo"]`; when
scanning `/a/b/c` inside a repository at `/a` with an ignore-file at
every level, the code collects only `/a`'s patterns and drops those of
`/a/b` and `/a/b/c`.  The loop guard
`search_path != root_path.parent and search_path in root_path.parents`
excludes both the root (not among its own `parents`) and its parent. -/
theorem C3_gitignore_chain_bug :
    load_gitignore_patterns envGitAtRoot ["r"] = [] ∧
    specChainPatterns envGitAtRoot ["r"] = ["foo"] ∧
    load_gitignore_patterns envGitAtRoot ["r"] ≠ specChainPatterns envGitAtRoot ["r"] ∧
    load_gitignore_patterns envGitAbove ["a", "b", "c"] = ["pa"] ∧
    specChainPatterns envGitAbove ["a", "b", "c"] = ["pa", "pb", "pc"] := by
  refine ⟨?_, ?_, ?_, ?_, ?_⟩ <;>
    simp [load_gitignore_patterns, specChainPatterns, findGitRoot, downWalk,
      gitignoreOf, processIgnoreLines, isAncestorOf, envGitAtRoot, envGitAbove,
      List.range, List.range.loop] <;>
    decide

/-- C6: (i) `should_ignore(path, patterns)` is true exactly when some
pattern glob-matches the path's base name or its full string form;
(ii) every entry it is true for is skipped entirely by the walker — no
node is emitted, nothing is descended into or statted, no state but the
`skipped` counter changes. -/
theorem C6_ignore_filtering :
    (∀ (name full : String) (pats : List String),
      should_ignore name full pats = true ↔
        ∃ p ∈ pats, fnmatch name p = true ∨ fnmatch full p = true) ∧
    (∀ (env : Env) (args : Args) (patterns pp : List String) (k : Nat)
      (e : FSEntry) (stats : Stats) (cache : Cache),
      should_ignore e.name (pathStr (pp ++ [e.name])) patterns = true →
      walkEntry env args patterns pp k e stats cache =
        .ok (none, { stats with skipped := stats.skipped + 1 }, cache)) := by
  constructor
  · intro name full pats
    simp [should_ignore, List.any_eq_true, Bool.or_eq_true]
  · intro env args patterns pp k e stats cache h
    exact walkEntry_ignored env args patterns pp k e stats cache h

/-- C6 (witness): `node_modules` under the default pattern set is
skipped and counted, emitting nothing. -/
theorem C6_ignore_filtering_witness :
    should_ignore "node_modules" (pathStr (["r"] ++ ["node_modules"])) base_ignore = true ∧
    walkEntry cEnv
      { ignore := [], use_gitignore := false, depth := none,
        use_cache := false, no_content := false }
      base_ignore ["r"] 0
      (.dir "node_modules" (some 3) true [.file "x.js" (some (12, 7)) true []])
      ⟨0, 0, 0, 0, 0⟩ [] =
      .ok (none, ⟨0, 0, 0, 0, 1⟩, []) := by
  have hig : should_ignore "node_modules" (pathStr (["r"] ++ ["node_modules"]))
      base_ignore = true := by
    simp [should_ignore, base_ignore, fnmatch, globMatch, pathStr, List.foldl]
  exact ⟨hig, C6_ignore_filtering.2 cEnv _ base_ignore ["r"] 0 _ ⟨0, 0, 0, 0, 0⟩ [] hig⟩

/-- C8 (counterexample): for the source `class A:` containing a method
`m`, `ast.walk` makes `parse_python_file` record *both* `class A:` and
`def m(...):` in `definitions`, whereas the claim ("exactly the
top-level function, async-function, and class definitions") expects
only `class A:`. -/
theorem C8_toplevel_counterexample :
    parse_python_file (.ok [.classDef "A" [.funcDef "m" []]]) =
      .py [] [] ["class A:", "def m(...):"] ∧
    specTopLevelDefinitions [.classDef "A" [.funcDef "m" []]] = ["class A:"] ∧
    (["class A:", "def m(...):"] : List String) ≠ ["class A:"] := by
  refine ⟨?_, by simp [specTopLevelDefinitions, pyDefs], by decide⟩
  simp [parse_python_file, pyWalk, PyStmt.children, pyStep]

/-- C8 (amended): on a parse failure the summary is exactly
`{"error": "SyntaxError parsing file."}` and the summarizer never
raises past this boundary (it is a total function of the parse
outcome); on success, `imports` records absolute imports by module
name, `local_imports` records relative imports in leading-dot
notation, and `definitions` records the `def name(...):` /
`class name:` signatures of the function, async-function and class
definitions *at every nesting level*, in the breadth-first order of
`ast.walk` — not only the top-level ones. -/
theorem C8_python_summary_amended :
    parse_python_file (.error ()) = .err "SyntaxError parsing file." ∧
    ∀ stmts : List PyStmt, parse_python_file (.ok stmts) =
      .py ((pyWalk stmts).flatMap pyImports)
          ((pyWalk stmts).flatMap pyLocalImports)
          ((pyWalk stmts).flatMap pyDefs) := by
  refine ⟨rfl, fun stmts => ?_⟩
  simp [parse_python_file, foldl_pyStep]

/-- C10: reading is done with `errors='ignore'`, so no file content can
fail summarization through its encoding: (i) for any byte content —
valid UTF-8 or not — a readable file's node carries the intelligent
summary of the lossily decoded text, never the read-error summary;
(ii) for `.md`/`.txt` names the result is always a markdown-variant
summary, whatever the bytes were; (iii) concretely, the invalid byte
`0xFF` inside `"# \xffHi"` is silently dropped and the remaining text
still yields the normal markdown summary for a `.md` file. -/
theorem C10_encoding_ignore :
    (∀ (env : Env) (args : Args) (patterns pp : List String) (k : Nat)
      (name : String) (mt : Int) (sz : Nat) (bytes : List Nat)
      (stats : Stats) (cache : Cache),
      should_ignore name (pathStr (pp ++ [name])) patterns = false →
      cacheHit args.use_cache cache (pathStr (pp ++ [name])) mt = none →
      args.no_content = false →
      walkEntry env args patterns pp k (.file name (some (mt, sz)) true bytes) stats cache =
        .ok (some (Node.file name (pathStr (pp ++ [name])) mt sz
              (get_intelligent_summary env name (readContentLines bytes))),
          { stats with files := stats.files + 1, size := stats.size + sz },
          if args.use_cache then
            cacheInsert cache (pathStr (pp ++ [name]))
              (mt, Node.file name (pathStr (pp ++ [name])) mt sz
                (get_intelligent_summary env name (readContentLines bytes)))
          else cache)) ∧
    (∀ (env : Env) (name : String) (bytes : List Nat),
      pyLower (pySuffix name) = ".md" →
      ∃ hs, get_intelligent_summary env name (readContentLines bytes) = .md hs) ∧
    utf8DecodeIgnore [0x23, 0x20, 0xFF, 0x48, 0x69] = "# Hi".data ∧
    get_intelligent_summary cEnv "x.md" (readContentLines [0x23, 0x20, 0xFF, 0x48, 0x69]) =
      .md ["- Hi"] := by
  refine ⟨?_, ?_, ?_, ?_⟩
  · intro env args patterns pp k name mt sz bytes stats cache h h3 hnc
    rw [walkEntry_file_fresh env args patterns pp k name mt sz true bytes stats cache h h3]
    simp [freshFileNode, hnc]
  · intro env name bytes hmd
    unfold get_intelligent_summary
    rw [hmd]
    simp [SUPPORTED_DOCS_EXTENSIONS, parse_markdown_file]
  · simp [utf8DecodeIgnore, isContByte]
  · have hdec : utf8DecodeIgnore [0x23, 0x20, 0xFF, 0x48, 0x69] = "# Hi".data := by
      simp [utf8DecodeIgnore, isContByte]
    have hrcl : readContentLines [0x23, 0x20, 0xFF, 0x48, 0x69] = ["# Hi"] := by
      rw [readContentLines, hdec]
      rfl
    have hsuf : pyLower (pySuffix "x.md") = ".md" := rfl
    have hmd : mdFind true ['#', ' ', 'H', 'i'] = [("#", "Hi")] := by
      simp [mdFind, mdTryMatch, List.takeWhile, List.dropWhile, isPySpace]
      exact ⟨rfl, rfl⟩
    have hpm : parse_markdown_file "# Hi" = .md ["- Hi"] := by
      unfold parse_markdown_file
      rw [show "# Hi".data = ['#', ' ', 'H', 'i'] from rfl, hmd]
      decide
    rw [hrcl]
    simp [get_intelligent_summary, hsuf, SUPPORTED_DOCS_EXTENSIONS]
    rw [show String.intercalate "\n" ["# Hi"] = "# Hi" from rfl]
    exact hpm

theorem cast_lt_pow (n : Nat) (j : Nat) :
    ((n : ℚ) / 1024 ^ j < 1024) ↔ (n < 1024 ^ (j + 1)) := by
  rw [div_lt_iff₀ (by positivity)]
  have hcast : (1024 : ℚ) * 1024 ^ j = ((1024 ^ (j + 1) : Nat) : ℚ) := by
    push_cast; ring
  rw [hcast, Nat.cast_lt]

theorem sizeLoop_stop (x : ℚ) (u : String) (us : List String) (h : x < 1024) :
    sizeLoop x (u :: us) = fmt2 x ++ " " ++ u := by
  simp [sizeLoop, h]

theorem sizeLoop_step (x : ℚ) (u : String) (us : List String) (h : ¬ x < 1024) :
    sizeLoop x (u :: us) = sizeLoop (x / 1024) us := by
  simp [sizeLoop, h]

theorem qdiv_succ (n : ℚ) (j : Nat) : n / 1024 ^ j / 1024 = n / 1024 ^ (j + 1) := by
  rw [div_div, ← pow_succ]

/-- C9: `get_size_format` maps 0 to `"0 B"` and 1536 to `"1.50 KB"`;
for every non-zero input the loop repeatedly divides by 1024 — at every
unit index below the one it lands on the value is still ≥ 1024 — lands
on the first index where the value drops below 1024 (or caps at index 5,
`PB`), and renders `fmt2` (two decimal places) of the value divided by
`1024^unitIdx`, followed by the unit name. -/
theorem C9_size_format :
    get_size_format 0 = "0 B" ∧ get_size_format 1536 = "1.50 KB" ∧
    ∀ n : Nat, n ≠ 0 →
      get_size_format n = fmt2 ((n : ℚ) / 1024 ^ unitIdx n) ++ " " ++ unitName (unitIdx n) ∧
      (∀ j : Nat, j < unitIdx n → ¬ ((n : ℚ) / 1024 ^ j < 1024)) ∧
      (unitIdx n = 5 ∨ (n : ℚ) / 1024 ^ unitIdx n < 1024) ∧
      unitIdx n ≤ 5 := by
  refine ⟨rfl, ?_, ?_⟩
  · simp only [get_size_format, sizeUnits, sizeLoop]
    norm_num
    unfold fmt2 roundHalfEven
    norm_num
    decide
  · intro n hn
    have hq0 : ∀ m : Nat, ((n : ℚ) / 1024 ^ m < 1024) ↔ (n < 1024 ^ (m + 1)) :=
      fun m => cast_lt_pow n m
    have hmono : ∀ j k : Nat, j + 1 ≤ k → ¬ n < 1024 ^ k → ¬ n < 1024 ^ (j + 1) := by
      intro j k hj hk
      have := Nat.pow_le_pow_right (by norm_num : 0 < 1024) hj
      omega
    have hstart : get_size_format n = sizeLoop ((n : ℚ) / 1024 ^ 0) sizeUnits := by
      simp [get_size_format, hn]
    by_cases h1 : n < 1024 ^ 1
    · have hu : unitIdx n = 0 := by
        simp [unitIdx, show n < 1024 from by simpa using h1]
      refine ⟨?_, ?_, ?_, ?_⟩
      · rw [hstart, hu, sizeUnits, sizeLoop_stop _ _ _ ((hq0 0).mpr h1)]
        rfl
      · intro j hj; rw [hu] at hj; omega
      · right; rw [hu]; exact (hq0 0).mpr h1
      · rw [hu]; omega
    · by_cases h2 : n < 1024 ^ 2
      · have hu : unitIdx n = 1 := by
          simp only [unitIdx]
          rw [if_neg (by simpa using h1), if_pos h2]
        refine ⟨?_, ?_, by right; rw [hu]; exact (hq0 1).mpr h2, by rw [hu]; omega⟩
        · rw [hstart, hu, sizeUnits,
            sizeLoop_step _ _ _ (by rw [hq0 0]; simpa using h1), qdiv_succ,
            sizeLoop_stop _ _ _ ((hq0 1).mpr h2)]
          rfl
        · intro j hj
          rw [hu] at hj
          interval_cases j
          rw [hq0 0]
          simpa using h1
      · by_cases h3 : n < 1024 ^ 3
        · have hu : unitIdx n = 2 := by
            simp only [unitIdx]
            rw [if_neg (by simpa using h1), if_neg h2, if_pos h3]
          refine ⟨?_, ?_, by right; rw [hu]; exact (hq0 2).mpr h3, by rw [hu]; omega⟩
          · rw [hstart, hu, sizeUnits,
              sizeLoop_step _ _ _ (by rw [hq0 0]; simpa using h1), qdiv_succ,
              sizeLoop_step _ _ _ (by rw [hq0 1]; exact h2), qdiv_succ,
              sizeLoop_stop _ _ _ ((hq0 2).mpr h3)]
            rfl
          · intro j hj
            rw [hu] at hj
            interval_cases j
            · rw [hq0 0]; simpa using h1
            · rw [hq0 1]; exact h2
        · by_cases h4 : n < 1024 ^ 4
          · have hu : unitIdx n = 3 := by
              simp only [unitIdx]
              rw [if_neg (by simpa using h1), if_neg h2, if_neg h3, if_pos h4]
            refine ⟨?_, ?_, by right; rw [hu]; exact (hq0 3).mpr h4, by rw [hu]; omega⟩
            · rw [hstart, hu, sizeUnits,
                sizeLoop_step _ _ _ (by rw [hq0 0]; simpa using h1), qdiv_succ,
                sizeLoop_step _ _ _ (by rw [hq0 1]; exact h2), qdiv_succ,
                sizeLoop_step _ _ _ (by rw [hq0 2]; exact h3), qdiv_succ,
                sizeLoop_stop _ _ _ ((hq0 3).mpr h4)]
              rfl
            · intro j hj
              rw [hu] at hj
              interval_cases j
              · rw [hq0 0]; simpa using h1
              · rw [hq0 1]; exact h2
              · rw [hq0 2]; exact h3
          · by_cases h5 : n < 1024 ^ 5
            · have hu : unitIdx n = 4 := by
                simp only [unitIdx]
                rw [if_neg (by simpa using h1), if_neg h2, if_neg h3, if_neg h4, if_pos h5]
              refine ⟨?_, ?_, by right; rw [hu]; exact (hq0 4).mpr h5, by rw [hu]; omega⟩
              · rw [hstart, hu, sizeUnits,
                  sizeLoop_step _ _ _ (by rw [hq0 0]; simpa using h1), qdiv_succ,
                  sizeLoop_step _ _ _ (by rw [hq0 1]; exact h2), qdiv_succ,
                  sizeLoop_step _ _ _ (by rw [hq0 2]; exact h3), qdiv_succ,
                  sizeLoop_step _ _ _ (by rw [hq0 3]; exact h4), qdiv_succ,
                  sizeLoop_stop _ _ _ ((hq0 4).mpr h5)]
                rfl
              · intro j hj
                rw [hu] at hj
                interval_cases j
                · rw [hq0 0]; simpa using h1
                · rw [hq0 1]; exact h2
                · rw [hq0 2]; exact h3
                · rw [hq0 3]; exact h4
            · have hu : unitIdx n = 5 := by
                simp only [unitIdx]
                rw [if_neg (by simpa using h1), if_neg h2, if_neg h3, if_neg h4, if_neg h5]
              refine ⟨?_, ?_, by left; exact hu, by rw [hu]⟩
              · rw [hstart, hu, sizeUnits,
                  sizeLoop_step _ _ _ (by rw [hq0 0]; simpa using h1), qdiv_succ,
                  sizeLoop_step _ _ _ (by rw [hq0 1]; exact h2), qdiv_succ,
                  sizeLoop_step _ _ _ (by rw [hq0 2]; exact h3), qdiv_succ,
                  sizeLoop_step _ _ _ (by rw [hq0 3]; exact h4), qdiv_succ,
                  sizeLoop_step _ _ _ (by rw [hq0 4]; exact h5), qdiv_succ]
                norm_num [sizeLoop, unitName, sizeUnits]
                rw [String.append_assoc]
                rfl
              · intro j hj
                rw [hu] at hj
                interval_cases j
                · rw [hq0 0]; simpa using h1
                · rw [hq0 1]; exact h2
                · rw [hq0 2]; exact h3
                · rw [hq0 3]; exact h4
                · rw [hq0 4]; exact h5

/-- C9 (witness): the universal part applied at `n = 1536` (unit index
1, `KB`), with the rendered value checked against the claim's
`"1.50 KB"`. -/
theorem C9_size_format_witness :
    get_size_format 1536 = fmt2 ((1536 : ℚ) / 1024 ^ unitIdx 1536) ++ " " ++ unitName (unitIdx 1536) ∧
    get_size_format 1536 = "1.50 KB" :=
  ⟨(C9_size_format.2.2 1536 (by decide)).1, C9_size_format.2.1⟩

theorem if_true_eq {α : Sort _} (a b : α) : (if (true = true) then a else b) = a :=
  if_pos rfl

theorem cacheHit_none_of_mismatch {uc : Bool} {cache : Cache} {k : String} {mt : Int}
    (h : ∀ m n, cacheLookup cache k = some (m, n) → m ≠ mt) :
    cacheHit uc cache k mt = none := by
  unfold cacheHit
  cases uc with
  | false => simp
  | true =>
    simp only [if_true]
    cases hl : cacheLookup cache k with
    | none => rfl
    | some v =>
      obtain ⟨m, n⟩ := v
      have := h m n hl
      simp [this]

theorem walkEntries_nil (env : Env) (args : Args) (patterns pp : List String)
    (k : Nat) (stats : Stats) (cache : Cache) :
    walkEntries env args patterns pp k [] stats cache = .ok ([], stats, cache) := by
  simp [walkEntries]

theorem walkEntries_cons (env : Env) (args : Args) (patterns pp : List String)
    (k : Nat) (e : FSEntry) (es : List FSEntry) (stats : Stats) (cache : Cache) :
    walkEntries env args patterns pp k (e :: es) stats cache =
      match walkEntry env args patterns pp k e stats cache with
      | .error u => .error u
      | .ok (n?, stats1, cache1) =>
        match walkEntries env args patterns pp k es stats1 cache1 with
        | .error u => .error u
        | .ok (ns, stats2, cache2) => .ok (n?.toList ++ ns, stats2, cache2) := by
  rw [walkEntries]

theorem walkEntries_append (env : Env) (args : Args) (patterns pp : List String)
    (k : Nat) (l1 l2 : List FSEntry) (stats : Stats) (cache : Cache) :
    walkEntries env args patterns pp k (l1 ++ l2) stats cache =
      match walkEntries env args patterns pp k l1 stats cache with
      | .error u => .error u
      | .ok (ns, stats1, cache1) =>
        match walkEntries env args patterns pp k l2 stats1 cache1 with
        | .error u => .error u
        | .ok (ns2, stats2, cache2) => .ok (ns ++ ns2, stats2, cache2) := by
  induction l1 generalizing stats cache with
  | nil =>
    rw [walkEntries_nil]
    simp only [List.nil_append]
    cases walkEntries env args patterns pp k l2 stats cache with
    | error u => rfl
    | ok r => obtain ⟨ns2, stats2, cache2⟩ := r; rfl
  | cons e es ih =>
    rw [show ((e :: es) ++ l2) = e :: (es ++ l2) from rfl]
    rw [walkEntries_cons, walkEntries_cons]
    cases walkEntry env args patterns pp k e stats cache with
    | error u => rfl
    | ok r =>
      obtain ⟨n?, stats1, cache1⟩ := r
      simp only []
      rw [ih stats1 cache1]
      cases walkEntries env args patterns pp k es stats1 cache1 with
      | error u => rfl
      | ok r2 =>
        obtain ⟨ns, stats2, cache2⟩ := r2
        simp only []
        cases walkEntries env args patterns pp k l2 stats2 cache2 with
        | error u => rfl
        | ok r3 =>
          obtain ⟨ns2, stats3, cache3⟩ := r3
          simp

/-- A run of sibling files that all hit the cache with matching mtimes:
each node comes from the cache verbatim, and neither the stats nor the
cache change. -/
theorem walkEntries_all_hits (env : Env) (args : Args) (patterns pp : List String)
    (k : Nat) (cnode : String → Node) (huc : args.use_cache = true) :
    ∀ (fs : List FileSpec) (stats : Stats) (cache : Cache),
    (∀ f ∈ fs, should_ignore f.name (pathStr (pp ++ [f.name])) patterns = false) →
    (∀ f ∈ fs, cacheLookup cache (pathStr (pp ++ [f.name])) = some (f.mt, cnode f.name)) →
    walkEntries env args patterns pp k (fs.map FileSpec.entry) stats cache =
      .ok (fs.map (fun f => cnode f.name), stats, cache) := by
  intro fs
  induction fs with
  | nil => intro stats cache _ _; exact walkEntries_nil env args patterns pp k stats cache
  | cons f rest ih =>
    intro stats cache hig hlk
    rw [List.map_cons, walkEntries_cons]
    rw [walkEntry_cache_hit env args patterns pp k f.entry stats cache f.mt f.sz
      (cnode f.name) huc
      (hig f (List.mem_cons_self f rest))
      (by rfl)
      (hlk f (List.mem_cons_self f rest))]
    dsimp only
    rw [ih stats cache (fun g hg => hig g (List.mem_cons_of_mem f hg))
      (fun g hg => hlk g (List.mem_cons_of_mem f hg))]
    simp

/-- C1: cache invalidation is exactly mtime-keyed.  (i) With caching
enabled, a non-ignored entry whose cached mtime equals its current
mtime is *reused*: the cached node is emitted verbatim and the cache is
unchanged.  (ii) A file whose cache binding is absent or carries a
different mtime is *recomputed*: its node is rebuilt from the
filesystem (`freshFileNode`), the counters advance, and the binding is
refreshed.  (iii) Sibling exactness: processing a directory of sibling
files of which exactly one has a changed mtime recomputes exactly that
file's node, reuses every sibling node verbatim from the cache, and
refreshes only the changed file's binding. -/
theorem C1_cache_invalidation :
    (∀ (env : Env) (args : Args) (patterns pp : List String) (k : Nat)
      (e : FSEntry) (stats : Stats) (cache : Cache) (mt : Int) (sz : Nat) (n : Node),
      args.use_cache = true →
      should_ignore e.name (pathStr (pp ++ [e.name])) patterns = false →
      e.statInfo = some (mt, sz) →
      cacheLookup cache (pathStr (pp ++ [e.name])) = some (mt, n) →
      walkEntry env args patterns pp k e stats cache = .ok (some n, stats, cache)) ∧
    (∀ (env : Env) (args : Args) (patterns pp : List String) (k : Nat)
      (name : String) (mt : Int) (sz : Nat) (rd : Bool) (ct : List Nat)
      (stats : Stats) (cache : Cache),
      args.use_cache = true →
      should_ignore name (pathStr (pp ++ [name])) patterns = false →
      (∀ m n, cacheLookup cache (pathStr (pp ++ [name])) = some (m, n) → m ≠ mt) →
      walkEntry env args patterns pp k (.file name (some (mt, sz)) rd ct) stats cache =
        .ok (some (freshFileNode env args pp name mt sz rd ct),
          { stats with files := stats.files + 1, size := stats.size + sz },
          cacheInsert cache (pathStr (pp ++ [name]))
            (mt, freshFileNode env args pp name mt sz rd ct))) ∧
    (∀ (env : Env) (args : Args) (patterns pp : List String) (k : Nat)
      (pre post : List FileSpec) (chg : FileSpec) (cnode : String → Node)
      (stats : Stats) (cache : Cache),
      args.use_cache = true →
      (∀ f ∈ pre ++ chg :: post,
        should_ignore f.name (pathStr (pp ++ [f.name])) patterns = false) →
      (∀ f ∈ pre ++ post,
        cacheLookup cache (pathStr (pp ++ [f.name])) = some (f.mt, cnode f.name)) →
      (∀ m n, cacheLookup cache (pathStr (pp ++ [chg.name])) = some (m, n) → m ≠ chg.mt) →
      (∀ f ∈ post, f.name ≠ chg.name) →
      walkEntries env args patterns pp k ((pre ++ chg :: post).map FileSpec.entry) stats cache =
        .ok (pre.map (fun f => cnode f.name) ++
              freshFileNode env args pp chg.name chg.mt chg.sz chg.readable chg.content ::
              post.map (fun f => cnode f.name),
          { stats with files := stats.files + 1, size := stats.size + chg.sz },
          cacheInsert cache (pathStr (pp ++ [chg.name]))
            (chg.mt, freshFileNode env args pp chg.name chg.mt chg.sz chg.readable chg.content))) := by
  refine ⟨walkEntry_cache_hit, ?_, ?_⟩
  · intro env args patterns pp k name mt sz rd ct stats cache huc hig hmm
    have h3 : cacheHit args.use_cache cache (pathStr (pp ++ [name])) mt = none :=
      cacheHit_none_of_mismatch hmm
    rw [walkEntry_file_fresh env args patterns pp k name mt sz rd ct stats cache hig h3, huc]
    simp
  · intro env args patterns pp k pre post chg cnode stats cache huc hig hlk hmm hpost
    rw [List.map_append, walkEntries_append]
    rw [walkEntries_all_hits env args patterns pp k cnode huc pre stats cache
      (fun f hf => hig f (List.mem_append_left _ hf))
      (fun f hf => hlk f (List.mem_append_left _ hf))]
    dsimp only
    rw [List.map_cons, walkEntries_cons]
    have h3 : cacheHit args.use_cache cache (pathStr (pp ++ [chg.name])) chg.mt = none :=
      cacheHit_none_of_mismatch hmm
    rw [show FileSpec.entry chg = .file chg.name (some (chg.mt, chg.sz)) chg.readable chg.content
      from rfl]
    rw [walkEntry_file_fresh env args patterns pp k chg.name chg.mt chg.sz chg.readable
      chg.content stats cache (hig chg (List.mem_append_right _ (List.mem_cons_self _ _))) h3,
      huc]
    dsimp only
    rw [if_true_eq]
    rw [walkEntries_all_hits env args patterns pp k cnode huc post
      { stats with files := stats.files + 1, size := stats.size + chg.sz }
      (cacheInsert cache (pathStr (pp ++ [chg.name]))
        (chg.mt, freshFileNode env args pp chg.name chg.mt chg.sz chg.readable chg.content))
      (fun f hf => hig f (List.mem_append_right _ (List.mem_cons_of_mem _ hf)))
      (fun f hf => by
        rw [cacheLookup_insert_ne (fun hkey => (hpost f hf) (pathStr_one_inj hkey.symm))]
        exact hlk f (List.mem_append_right _ hf))]
    simp

/-- C1 (witness): three sibling files `a`, `b`, `c`; `b`'s content (and
mtime, now 20) changed between the runs; the second run reuses the
cached nodes of `a` and `c` verbatim, recomputes exactly `b`'s node,
and refreshes only `b`'s cache binding. -/
theorem C1_cache_invalidation_witness :
    walkEntries cEnv
      { ignore := [], use_gitignore := false, depth := none,
        use_cache := true, no_content := true }
      [] ["r"] 0
      ([⟨"a", 10, 1, true, []⟩, ⟨"b", 20, 2, true, []⟩,
        ⟨"c", 12, 3, true, []⟩].map FileSpec.entry)
      ⟨0, 0, 0, 0, 0⟩
      [("/r/a", 10, Node.file "a" "/r/a" 10 1 Summary.omitted),
       ("/r/b", 11, Node.file "b" "/r/b" 11 2 Summary.omitted),
       ("/r/c", 12, Node.file "c" "/r/c" 12 3 Summary.omitted)] =
      .ok ([Node.file "a" "/r/a" 10 1 Summary.omitted,
            Node.file "b" "/r/b" 20 2 Summary.omitted,
            Node.file "c" "/r/c" 12 3 Summary.omitted],
        ⟨1, 0, 2, 0, 0⟩,
        [("/r/a", 10, Node.file "a" "/r/a" 10 1 Summary.omitted),
         ("/r/b", 20, Node.file "b" "/r/b" 20 2 Summary.omitted),
         ("/r/c", 12, Node.file "c" "/r/c" 12 3 Summary.omitted)]) := by
  have h := C1_cache_invalidation.2.2 cEnv
    { ignore := [], use_gitignore := false, depth := none,
      use_cache := true, no_content := true }
    [] ["r"] 0
    [⟨"a", 10, 1, true, []⟩] [⟨"c", 12, 3, true, []⟩] ⟨"b", 20, 2, true, []⟩
    (fun nm => if nm = "a" then Node.file "a" "/r/a" 10 1 Summary.omitted
      else if nm = "b" then Node.file "b" "/r/b" 11 2 Summary.omitted
      else Node.file "c" "/r/c" 12 3 Summary.omitted)
    ⟨0, 0, 0, 0, 0⟩
    [("/r/a", 10, Node.file "a" "/r/a" 10 1 Summary.omitted),
     ("/r/b", 11, Node.file "b" "/r/b" 11 2 Summary.omitted),
     ("/r/c", 12, Node.file "c" "/r/c" 12 3 Summary.omitted)]
    rfl
    (by intro f hf; fin_cases hf <;> rfl)
    (by intro f hf; fin_cases hf <;> rfl)
    (by intro m n hl
        rw [show pathStr (["r"] ++ ["b"]) = "/r/b" from rfl] at hl
        simp [cacheLookup] at hl
        obtain ⟨h1, h2⟩ := hl
        show m ≠ 20
        omega)
    (by intro f hf; fin_cases hf <;> decide)
  rw [show ([⟨"a", 10, 1, true, []⟩, ⟨"b", 20, 2, true, []⟩,
      ⟨"c", 12, 3, true, []⟩] : List FileSpec) =
    [⟨"a", 10, 1, true, []⟩] ++ ⟨"b", 20, 2, true, []⟩ :: [⟨"c", 12, 3, true, []⟩] from rfl]
  rw [h]
  rfl

theorem cacheHit_some_inv {uc : Bool} {cache : Cache} {k : String} {mt : Int} {n : Node}
    (h : cacheHit uc cache k mt = some n) :
    uc = true ∧ cacheLookup cache k = some (mt, n) := by
  cases uc with
  | false => rw [cacheHit_false] at h; exact absurd h (by simp)
  | true => exact ⟨rfl, cacheHit_eq_some.mp h⟩

/-- A fresh directory below the depth limit whose listing succeeds:
its sorted entries are processed one level deeper and become its
children. -/
theorem walkEntry_dir_descend (env : Env) (args : Args) (patterns : List String)
    (pp : List String) (k : Nat) (name : String) (mt : Int)
    (es : List FSEntry) (stats : Stats) (cache : Cache)
    (h : should_ignore name (pathStr (pp ++ [name])) patterns = false)
    (h3 : cacheHit args.use_cache cache (pathStr (pp ++ [name])) mt = none)
    (hcut : depthCut args.depth (k + 1) = false) :
    walkEntry env args patterns pp k (.dir name (some mt) true es) stats cache =
      match walkEntries env args patterns (pp ++ [name]) (k + 1) (sortEntries es)
        { stats with dirs := stats.dirs + 1 } cache with
      | .error u => .error u
      | .ok (children, stats2, cache2) =>
        .ok (some (Node.dir name (pathStr (pp ++ [name])) (some mt) children), stats2,
          if args.use_cache then
            cacheInsert cache2 (pathStr (pp ++ [name]))
              (mt, Node.dir name (pathStr (pp ++ [name])) (some mt) children)
          else cache2) := by
  rw [walkEntry]
  simp only [FSEntry.name, FSEntry.statInfo, Option.map_some', h, Bool.false_eq_true,
    if_false, h3, hcut, Bool.not_true]

theorem allStatsOkList_insertSortedStable (x : FSEntry) (l : List FSEntry) :
    allStatsOkList (insertSortedStable x l) = (allStatsOk x && allStatsOkList l) := by
  induction l with
  | nil => simp [insertSortedStable, allStatsOkList]
  | cons y ys ih =>
    by_cases h : entryLE y x = true <;>
      simp [insertSortedStable, h, allStatsOkList, ih, Bool.and_assoc, Bool.and_comm,
        Bool.and_left_comm]

theorem allStatsOkList_foldl_insert (l acc : List FSEntry) :
    allStatsOkList (l.foldl (fun a e => insertSortedStable e a) acc) =
      (allStatsOkList l && allStatsOkList acc) := by
  induction l generalizing acc with
  | nil => simp [allStatsOkList]
  | cons e es ih =>
    simp [List.foldl, ih, allStatsOkList_insertSortedStable, allStatsOkList,
      Bool.and_assoc, Bool.and_comm, Bool.and_left_comm]

theorem allStatsOkList_sortEntries (l : List FSEntry) :
    allStatsOkList (sortEntries l) = allStatsOkList l := by
  simp [sortEntries, allStatsOkList_foldl_insert, allStatsOkList]

/-- Strong-induction core for exception containment: when every entry
in the subtree can be statted, the walker cannot fail. -/
theorem walk_total_aux : ∀ N : Nat,
    (∀ (env : Env) (args : Args) (patterns pp : List String) (k : Nat)
      (e : FSEntry) (stats : Stats) (cache : Cache), fsSize e ≤ N →
      allStatsOk e = true →
      isOkB (walkEntry env args patterns pp k e stats cache) = true) ∧
    (∀ (env : Env) (args : Args) (patterns pp : List String) (k : Nat)
      (es : List FSEntry) (stats : Stats) (cache : Cache), fsSizeList es ≤ N →
      allStatsOkList es = true →
      isOkB (walkEntries env args patterns pp k es stats cache) = true) := by
  intro N
  induction N using Nat.strong_induction_on with
  | _ N IH =>
    have p1 : ∀ (env : Env) (args : Args) (patterns pp : List String) (k : Nat)
        (e : FSEntry) (stats : Stats) (cache : Cache), fsSize e ≤ N →
        allStatsOk e = true →
        isOkB (walkEntry env args patterns pp k e stats cache) = true := by
      intro env args patterns pp k e stats cache hsize hok
      by_cases hig : should_ignore e.name (pathStr (pp ++ [e.name])) patterns = true
      · rw [walkEntry_ignored _ _ _ _ _ _ _ _ hig]; rfl
      · have hig' : should_ignore e.name (pathStr (pp ++ [e.name])) patterns = false := by
          simpa using hig
        cases e with
        | file name st rd ct =>
          obtain ⟨⟨mt, sz⟩, hst⟩ : ∃ v, st = some v := by
            cases st with
            | none => simp [allStatsOk] at hok
            | some v => exact ⟨v, rfl⟩
          subst hst
          cases hhit : cacheHit args.use_cache cache (pathStr (pp ++ [FSEntry.name (.file name (some (mt, sz)) rd ct)])) mt with
          | some n =>
            obtain ⟨huc, hlk⟩ := cacheHit_some_inv hhit
            rw [walkEntry_cache_hit env args patterns pp k _ stats cache mt sz n huc hig'
              (by rfl) hlk]
            rfl
          | none =>
            rw [walkEntry_file_fresh env args patterns pp k name mt sz rd ct stats cache
              hig' hhit]
            rfl
        | dir name st li es =>
          obtain ⟨mt, hst⟩ : ∃ v, st = some v := by
            cases st with
            | none => simp [allStatsOk] at hok
            | some v => exact ⟨v, rfl⟩
          subst hst
          have hoklist : allStatsOkList es = true := by
            simp [allStatsOk] at hok; exact hok
          cases hhit : cacheHit args.use_cache cache (pathStr (pp ++ [FSEntry.name (.dir name (some mt) li es)])) mt with
          | some n =>
            obtain ⟨huc, hlk⟩ := cacheHit_some_inv hhit
            rw [walkEntry_cache_hit env args patterns pp k _ stats cache mt 0 n huc hig'
              (by rfl) hlk]
            rfl
          | none =>
            by_cases hcut : depthCut args.depth (k + 1) = true
            · rw [walkEntry_dir_cut env args patterns pp k name mt li es stats cache
                hig' hhit hcut]
              rfl
            · have hcut' : depthCut args.depth (k + 1) = false := by simpa using hcut
              cases li with
              | false =>
                rw [walkEntry_dir_unlistable env args patterns pp k name mt es stats cache
                  hig' hhit hcut']
                rfl
              | true =>
                rw [walkEntry_dir_descend env args patterns pp k name mt es stats cache
                  hig' hhit hcut']
                have hlt : fsSizeList (sortEntries es) < N := by
                  rw [fsSizeList_sortEntries]
                  have : fsSize (FSEntry.dir name (some mt) true es) = 1 + fsSizeList es := rfl
                  omega
                have hrec := (IH (fsSizeList (sortEntries es)) hlt).2 env args patterns
                  (pp ++ [name]) (k + 1) (sortEntries es)
                  { stats with dirs := stats.dirs + 1 } cache (le_refl _)
                  (by rw [allStatsOkList_sortEntries]; exact hoklist)
                cases hres : walkEntries env args patterns (pp ++ [name]) (k + 1)
                    (sortEntries es) { stats with dirs := stats.dirs + 1 } cache with
                | error u => rw [hres] at hrec; simp [isOkB] at hrec
                | ok r => obtain ⟨children, stats2, cache2⟩ := r; rfl
    refine ⟨p1, ?_⟩
    intro env args patterns pp k es stats cache hsize hok
    cases es with
    | nil => rw [walkEntries_nil]; rfl
    | cons e es' =>
      have hsizes : fsSize e + fsSizeList es' ≤ N := by
        have : fsSizeList (e :: es') = fsSize e + fsSizeList es' := rfl
        omega
      have hoks : allStatsOk e = true ∧ allStatsOkList es' = true := by
        simp [allStatsOkList] at hok; exact hok
      rw [walkEntries_cons]
      have h1 := p1 env args patterns pp k e stats cache
        (le_trans (by have := fsSizeList_eq_sum es'; omega) (le_refl N)) hoks.1
      cases hres : walkEntry env args patterns pp k e stats cache with
      | error u => rw [hres] at h1; simp [isOkB] at h1
      | ok r =>
        obtain ⟨n?, stats1, cache1⟩ := r
        dsimp only
        have hlt2 : fsSizeList es' < N := by
          have := fsSize_pos e
          omega
        have h2 := (IH (fsSizeList es') hlt2).2 env args patterns pp k es' stats1 cache1
          (le_refl _) hoks.2
        cases hres2 : walkEntries env args patterns pp k es' stats1 cache1 with
        | error u => rw [hres2] at h2; simp [isOkB] at h2
        | ok r2 => obtain ⟨ns, stats2, cache2⟩ := r2; rfl

/-- C7 (counterexample): the claim says the scan never fails for a
listing/statting error on an entry, but `entry.stat()` at line 167 sits
outside every `try`: a single entry whose stat raises (for instance a
dangling symlink, or a file removed between the listing and the stat)
aborts the whole `map_directory` call. -/
theorem C7_stat_error_counterexample :
    map_directory cEnv ["r"] (.dir "r" (some 1) true [.file "ghost" none true []])
      { ignore := [], use_gitignore := false, depth := none,
        use_cache := false, no_content := false } [] = .error () := by
  simp [map_directory, cEnv, walkEntry, walkEntries, prePassSkipped, prePassList,
    should_ignore, base_ignore, fnmatch, globMatch, pathStr, depthCut, sortEntries,
    insertSortedStable, entryLE, FSEntry.name, FSEntry.isFile, FSEntry.isDir,
    FSEntry.statInfo, cacheLookup, cacheInsert, cacheHit, List.filter, List.foldl,
    load_gitignore_patterns]

/-- C7 (amended): exception containment holds for directory *listing*
failures (the directory is treated as having zero children) and for
file *read* failures (the node gets the structured read-error summary),
and a scan over a tree in which every `entry.stat()` succeeds never
fails; but a failing stat on an individual entry propagates out of the
walker and aborts the scan (see the counterexample). -/
theorem C7_exception_containment_amended :
    (∀ (env : Env) (rootPath : List String) (root : FSEntry) (args : Args)
      (cache : Cache), allStatsOk root = true →
      isOkB (map_directory env rootPath root args cache) = true) ∧
    (∀ (env : Env) (args : Args) (patterns pp : List String) (k : Nat)
      (name : String) (mt : Int) (es : List FSEntry) (stats : Stats) (cache : Cache),
      should_ignore name (pathStr (pp ++ [name])) patterns = false →
      cacheHit args.use_cache cache (pathStr (pp ++ [name])) mt = none →
      depthCut args.depth (k + 1) = false →
      walkEntry env args patterns pp k (.dir name (some mt) false es) stats cache =
        .ok (some (Node.dir name (pathStr (pp ++ [name])) (some mt) []),
          { stats with dirs := stats.dirs + 1 },
          if args.use_cache then
            cacheInsert cache (pathStr (pp ++ [name]))
              (mt, Node.dir name (pathStr (pp ++ [name])) (some mt) [])
          else cache)) ∧
    (∀ (env : Env) (args : Args) (patterns pp : List String) (k : Nat)
      (name : String) (mt : Int) (sz : Nat) (ct : List Nat) (stats : Stats) (cache : Cache),
      should_ignore name (pathStr (pp ++ [name])) patterns = false →
      cacheHit args.use_cache cache (pathStr (pp ++ [name])) mt = none →
      args.no_content = false →
      walkEntry env args patterns pp k (.file name (some (mt, sz)) false ct) stats cache =
        .ok (some (Node.file name (pathStr (pp ++ [name])) mt sz
              (Summary.err "Could not read or parse file.")),
          { stats with files := stats.files + 1, size := stats.size + sz },
          if args.use_cache then
            cacheInsert cache (pathStr (pp ++ [name]))
              (mt, Node.file name (pathStr (pp ++ [name])) mt sz
                (Summary.err "Could not read or parse file."))
          else cache)) := by
  refine ⟨?_, ?_, ?_⟩
  · intro env rootPath root args cache hok
    unfold map_directory
    by_cases hcut : depthCut args.depth 0 = true
    · simp [hcut, isOkB]
    · simp only [hcut, Bool.false_eq_true, if_false]
      cases root with
      | file name st rd ct => simp [isOkB]
      | dir name st li es =>
        cases li with
        | false => simp [isOkB]
        | true =>
          simp only [Bool.not_true, Bool.false_eq_true, if_false]
          have hoklist : allStatsOkList es = true := by
            cases st with
            | none => simp [allStatsOk] at hok
            | some v => simp [allStatsOk] at hok; exact hok
          have htot := (walk_total_aux (fsSizeList (sortEntries es))).2 env args
            (args.ignore ++ base_ignore ++
              (if args.use_gitignore then load_gitignore_patterns env rootPath else []))
            rootPath 0 (sortEntries es)
            { files := 0, dirs := 0, size := 0, tokens := 0,
              skipped := prePassSkipped
                (args.ignore ++ base_ignore ++
                  (if args.use_gitignore then load_gitignore_patterns env rootPath else []))
                args.depth 0 (.dir name st true es) }
            cache (le_refl _) (by rw [allStatsOkList_sortEntries]; exact hoklist)
          cases hres : walkEntries env args
              (args.ignore ++ base_ignore ++
                (if args.use_gitignore then load_gitignore_patterns env rootPath else []))
              rootPath 0 (sortEntries es)
              { files := 0, dirs := 0, size := 0, tokens := 0,
                skipped := prePassSkipped
                  (args.ignore ++ base_ignore ++
                    (if args.use_gitignore then load_gitignore_patterns env rootPath else []))
                  args.depth 0 (.dir name st true es) }
              cache with
          | error u => rw [hres] at htot; simp [isOkB] at htot
          | ok r =>
            obtain ⟨children, stats1, cache1⟩ := r
            rfl
  · intro env args patterns pp k name mt es stats cache h h3 hcut
    exact walkEntry_dir_unlistable env args patterns pp k name mt es stats cache h h3 hcut
  · intro env args patterns pp k name mt sz ct stats cache h h3 hnc
    rw [walkEntry_file_fresh env args patterns pp k name mt sz false ct stats cache h h3]
    simp [freshFileNode, hnc]

/-- C7 (witness): the containment branches at concrete inputs — a scan
over a fully stattable tree containing an unreadable file and an
unlistable directory succeeds, the unlistable directory coming out with
zero children and the unreadable file with the read-error summary. -/
theorem C7_exception_containment_amended_witness :
    isOkB (map_directory cEnv ["r"]
      (.dir "r" (some 1) true [
        .file "locked" (some (10, 7)) false [],
        .dir "secret" (some (2 : Int)) false [.file "x" (some (11, 3)) true []]])
      { ignore := [], use_gitignore := false, depth := none,
        use_cache := false, no_content := false } []) = true ∧
    walkEntry cEnv
      { ignore := [], use_gitignore := false, depth := none,
        use_cache := false, no_content := false }
      [] ["r"] 0 (.dir "secret" (some (2 : Int)) false [.file "x" (some (11, 3)) true []])
      ⟨0, 0, 0, 0, 0⟩ [] =
      .ok (some (Node.dir "secret" "/r/secret" (some 2) []), ⟨0, 1, 0, 0, 0⟩, []) ∧
    walkEntry cEnv
      { ignore := [], use_gitignore := false, depth := none,
        use_cache := false, no_content := false }
      [] ["r"] 0 (.file "locked" (some (10, 7)) false [])
      ⟨0, 0, 0, 0, 0⟩ [] =
      .ok (some (Node.file "locked" "/r/locked" 10 7
            (Summary.err "Could not read or parse file.")), ⟨1, 0, 7, 0, 0⟩, []) := by
  refine ⟨?_, ?_, ?_⟩
  · exact C7_exception_containment_amended.1 cEnv ["r"] _ _ [] (by rfl)
  · have h := C7_exception_containment_amended.2.1 cEnv
      { ignore := [], use_gitignore := false, depth := none,
        use_cache := false, no_content := false }
      [] ["r"] 0 "secret" 2 [.file "x" (some (11, 3)) true []] ⟨0, 0, 0, 0, 0⟩ []
      (by rfl) (by rfl) (by rfl)
    rw [h]
    rfl
  · have h := C7_exception_containment_amended.2.2 cEnv
      { ignore := [], use_gitignore := false, depth := none,
        use_cache := false, no_content := false }
      [] ["r"] 0 "locked" 10 7 [] ⟨0, 0, 0, 0, 0⟩ []
      (by rfl) (by rfl) (by rfl)
    rw [h]
    rfl

/-- C10 (witness): the general branches applied concretely — an
undecodable `.md` file is read with the encoding errors ignored and
still produces the normal markdown summary. -/
theorem C10_encoding_ignore_witness :
    walkEntry cEnv
      { ignore := [], use_gitignore := false, depth := none,
        use_cache := false, no_content := false }
      [] ["r"] 0 (.file "x.md" (some (10, 5)) true [0x23, 0x20, 0xFF, 0x48, 0x69])
      ⟨0, 0, 0, 0, 0⟩ [] =
      .ok (some (Node.file "x.md" "/r/x.md" 10 5 (Summary.md ["- Hi"])), ⟨1, 0, 5, 0, 0⟩, []) := by
  have h := C10_encoding_ignore.1 cEnv
    { ignore := [], use_gitignore := false, depth := none,
      use_cache := false, no_content := false }
    [] ["r"] 0 "x.md" 10 5 [0x23, 0x20, 0xFF, 0x48, 0x69] ⟨0, 0, 0, 0, 0⟩ []
    (by rfl) (by rfl) (by rfl)
  rw [h]
  rw [C10_encoding_ignore.2.2.2]
  simp [pathStr, List.foldl]

theorem nodeHeightList_append (a b : List Node) :
    nodeHeightList (a ++ b) = max (nodeHeightList a) (nodeHeightList b) := by
  induction a with
  | nil => simp [nodeHeightList]
  | cons c cs ih => simp [nodeHeightList, ih, Nat.max_assoc]

/-- Strong-induction core for the depth bound: with caching disabled
and a depth limit `d`, a node emitted while processing the entries of a
directory at depth `k` roots a subtree of height at most `d - (k+1)`;
a child list produced below a non-cut depth `k` has height at most
`d - k`. -/
theorem walk_height_aux : ∀ N : Nat,
    (∀ (env : Env) (args : Args) (patterns pp : List String) (k : Nat)
      (e : FSEntry) (stats : Stats) (cache : Cache) (d : Nat) (n : Node)
      (stats' : Stats) (cache' : Cache), fsSize e ≤ N →
      args.use_cache = false → args.depth = some d →
      walkEntry env args patterns pp k e stats cache = .ok (some n, stats', cache') →
      nodeHeight n ≤ d - (k + 1)) ∧
    (∀ (env : Env) (args : Args) (patterns pp : List String) (k : Nat)
      (es : List FSEntry) (stats : Stats) (cache : Cache) (d : Nat) (ns : List Node)
      (stats' : Stats) (cache' : Cache), fsSizeList es ≤ N →
      args.use_cache = false → args.depth = some d → depthCut args.depth k = false →
      walkEntries env args patterns pp k es stats cache = .ok (ns, stats', cache') →
      nodeHeightList ns ≤ d - k) := by
  intro N
  induction N using Nat.strong_induction_on with
  | _ N IH =>
    have p1 : ∀ (env : Env) (args : Args) (patterns pp : List String) (k : Nat)
        (e : FSEntry) (stats : Stats) (cache : Cache) (d : Nat) (n : Node)
        (stats' : Stats) (cache' : Cache), fsSize e ≤ N →
        args.use_cache = false → args.depth = some d →
        walkEntry env args patterns pp k e stats cache = .ok (some n, stats', cache') →
        nodeHeight n ≤ d - (k + 1) := by
      intro env args patterns pp k e stats cache d n stats' cache' hsize huc hd hw
      by_cases hig : should_ignore e.name (pathStr (pp ++ [e.name])) patterns = true
      · rw [walkEntry_ignored _ _ _ _ _ _ _ _ hig] at hw
        simp at hw
      · have hig' : should_ignore e.name (pathStr (pp ++ [e.name])) patterns = false := by
          simpa using hig
        cases e with
        | file name st rd ct =>
          cases st with
          | none =>
            rw [walkEntry_stat_raises _ _ _ _ _ _ _ _ hig' (by rfl)] at hw
            exact absurd hw (by simp)
          | some v =>
            obtain ⟨mt, sz⟩ := v
            rw [walkEntry_file_fresh env args patterns pp k name mt sz rd ct stats cache
              hig' (by rw [huc]; exact cacheHit_false _ _ _)] at hw
            simp only [huc, Bool.false_eq_true, if_false, Except.ok.injEq,
              Option.some.injEq, Prod.mk.injEq] at hw
            rw [← hw.1]
            simp [freshFileNode, nodeHeight]
        | dir name st li es =>
          cases st with
          | none =>
            rw [walkEntry_stat_raises _ _ _ _ _ _ _ _ hig' (by rfl)] at hw
            exact absurd hw (by simp)
          | some mt =>
            by_cases hcut : depthCut args.depth (k + 1) = true
            · rw [walkEntry_dir_cut env args patterns pp k name mt li es stats cache
                hig' (by rw [huc]; exact cacheHit_false _ _ _) hcut] at hw
              simp only [huc, Bool.false_eq_true, if_false, Except.ok.injEq,
                Option.some.injEq, Prod.mk.injEq] at hw
              rw [← hw.1]
              simp [nodeHeight, nodeHeightList]
            · have hcut' : depthCut args.depth (k + 1) = false := by simpa using hcut
              cases li with
              | false =>
                rw [walkEntry_dir_unlistable env args patterns pp k name mt es stats cache
                  hig' (by rw [huc]; exact cacheHit_false _ _ _) hcut'] at hw
                simp only [huc, Bool.false_eq_true, if_false, Except.ok.injEq,
                  Option.some.injEq, Prod.mk.injEq] at hw
                rw [← hw.1]
                simp [nodeHeight, nodeHeightList]
              | true =>
                rw [walkEntry_dir_descend env args patterns pp k name mt es stats cache
                  hig' (by rw [huc]; exact cacheHit_false _ _ _) hcut'] at hw
                cases hres : walkEntries env args patterns (pp ++ [name]) (k + 1)
                    (sortEntries es) { stats with dirs := stats.dirs + 1 } cache with
                | error u => rw [hres] at hw; exact absurd hw (by simp)
                | ok r =>
                  obtain ⟨children, stats2, cache2⟩ := r
                  rw [hres] at hw
                  simp only [huc, Bool.false_eq_true, if_false, Except.ok.injEq,
                    Option.some.injEq, Prod.mk.injEq] at hw
                  have hlt : fsSizeList (sortEntries es) < N := by
                    rw [fsSizeList_sortEntries]
                    have : fsSize (FSEntry.dir name (some mt) true es) = 1 + fsSizeList es := rfl
                    omega
                  have hrec := (IH (fsSizeList (sortEntries es)) hlt).2 env args patterns
                    (pp ++ [name]) (k + 1) (sortEntries es)
                    { stats with dirs := stats.dirs + 1 } cache d children stats2 cache2
                    (le_refl _) huc hd hcut' hres
                  rw [← hw.1]
                  simpa [nodeHeight] using hrec
    refine ⟨p1, ?_⟩
    intro env args patterns pp k es stats cache d ns stats' cache' hsize huc hd hk hw
    cases es with
    | nil =>
      rw [walkEntries_nil] at hw
      simp only [Except.ok.injEq, Prod.mk.injEq] at hw
      rw [← hw.1]
      simp [nodeHeightList]
    | cons e es' =>
      rw [walkEntries_cons] at hw
      have hkd : k < d := by
        rw [hd] at hk
        simp [depthCut] at hk
        omega
      cases hres : walkEntry env args patterns pp k e stats cache with
      | error u => rw [hres] at hw; exact absurd hw (by simp)
      | ok r =>
        obtain ⟨n?, stats1, cache1⟩ := r
        rw [hres] at hw
        dsimp only at hw
        cases hres2 : walkEntries env args patterns pp k es' stats1 cache1 with
        | error u => rw [hres2] at hw; exact absurd hw (by simp)
        | ok r2 =>
          obtain ⟨ns1, stats2, cache2⟩ := r2
          rw [hres2] at hw
          simp only [Except.ok.injEq, Prod.mk.injEq] at hw
          have hlt2 : fsSizeList es' < N := by
            have h1 := fsSize_pos e
            have : fsSizeList (e :: es') = fsSize e + fsSizeList es' := rfl
            omega
          have htail := (IH (fsSizeList es') hlt2).2 env args patterns pp k es' stats1
            cache1 d ns1 stats2 cache2 (le_refl _) huc hd hk hres2
          rw [← hw.1]
          cases n? with
          | none => simpa using htail
          | some n =>
            have hhead := p1 env args patterns pp k e stats cache d n stats1 cache1
              (by have : fsSizeList (e :: es') = fsSize e + fsSizeList es' := rfl; omega)
              huc hd hres
            simp only [Option.toList_some, List.singleton_append, List.append_eq,
              List.nil_append, nodeHeightList, Nat.max_le]
            omega

/-- C4 (counterexample): a depth-`1` scan of a root holding a file
`a.txt` and a directory `s` (which itself holds a file `f` and a
directory `t`).  The emitted tree *does* contain nodes at depth
`1 ≥ d` — both `s` and `a.txt` — refuting "no node in the output tree
has a path depth ≥ d"; and of the two children of the depth-cut
directory `s`, only the subdirectory `t` is counted as skipped
(`skipped = 1`), not the file `f`, refuting "all children beyond that
depth are counted in the skipped statistic". -/
theorem C4_depth_counterexample :
    map_directory cEnv ["r"]
      (.dir "r" (some 1) true [
        .file "a.txt" (some (10, 7)) true [],
        .dir "s" (some 2) true [.file "f" (some (11, 3)) true [],
          .dir "t" (some 3) true []]])
      { ignore := [], use_gitignore := false, depth := some 1,
        use_cache := false, no_content := true } [] =
      .ok (.dir "r" "/r" none [
          .dir "s" "/r/s" (some 2) [],
          .file "a.txt" "/r/a.txt" 10 7 .omitted],
        { files := 1, dirs := 1, size := 7, tokens := 0, skipped := 1 }, []) ∧
    nodeHeight (.dir "r" "/r" none [
        .dir "s" "/r/s" (some 2) [],
        .file "a.txt" "/r/a.txt" 10 7 .omitted]) = 1 ∧
    ¬ nodeHeight (.dir "r" "/r" none [
        .dir "s" "/r/s" (some 2) [],
        .file "a.txt" "/r/a.txt" 10 7 .omitted]) < 1 := by
  refine ⟨?_, by simp [nodeHeight, nodeHeightList], by simp [nodeHeight, nodeHeightList]⟩
  simp [map_directory, cEnv, walkEntry, walkEntries, prePassSkipped, prePassList,
    should_ignore, base_ignore, fnmatch, globMatch, pathStr, depthCut, sortEntries,
    insertSortedStable, entryLE, FSEntry.name, FSEntry.isFile, FSEntry.isDir,
    FSEntry.statInfo, cacheLookup, cacheInsert, cacheHit, List.filter, List.foldl,
    load_gitignore_patterns]

/-- C4 (amended): with a depth limit `d` set and caching disabled,
(i) every node of the output tree has path depth at most `d` — so
nodes at depth exactly `d` *are* emitted, and a directory at depth
≥ `d` is never expanded; (ii) in the `os.walk` pre-pass producing the
depth-related `skipped` counts, files contribute nothing — a file
entry can be removed from any directory without changing the count
(only immediate *subdirectories* beyond the cut are counted); (iii) a
fresh directory entry at a cut depth is emitted with zero children,
and only the `dirs` counter advances for it. -/
theorem C4_depth_amended :
    (∀ (env : Env) (rootPath : List String) (root : FSEntry) (args : Args)
      (cache : Cache) (d : Nat) (tree : Node) (stats' : Stats) (cache' : Cache),
      args.use_cache = false → args.depth = some d →
      map_directory env rootPath root args cache = .ok (tree, stats', cache') →
      nodeHeight tree ≤ d) ∧
    (∀ (patterns : List String) (dOpt : Option Nat) (depth : Nat) (nm : String)
      (st : Option Int) (li : Bool) (fn : String) (fst : Option (Int × Nat))
      (frd : Bool) (fct : List Nat) (es : List FSEntry),
      prePassSkipped patterns dOpt depth (.dir nm st li (.file fn fst frd fct :: es)) =
        prePassSkipped patterns dOpt depth (.dir nm st li es)) ∧
    (∀ (env : Env) (args : Args) (patterns pp : List String) (k : Nat)
      (name : String) (mt : Int) (li : Bool) (es : List FSEntry)
      (stats : Stats) (cache : Cache),
      should_ignore name (pathStr (pp ++ [name])) patterns = false →
      cacheHit args.use_cache cache (pathStr (pp ++ [name])) mt = none →
      depthCut args.depth (k + 1) = true →
      walkEntry env args patterns pp k (.dir name (some mt) li es) stats cache =
        .ok (some (Node.dir name (pathStr (pp ++ [name])) (some mt) []),
          { stats with dirs := stats.dirs + 1 },
          if args.use_cache then
            cacheInsert cache (pathStr (pp ++ [name]))
              (mt, Node.dir name (pathStr (pp ++ [name])) (some mt) [])
          else cache)) := by
  refine ⟨?_, ?_, walkEntry_dir_cut⟩
  · intro env rootPath root args cache d tree stats' cache' huc hd hw
    unfold map_directory at hw
    by_cases hcut : depthCut args.depth 0 = true
    · simp only [hcut, if_true, Except.ok.injEq, Prod.mk.injEq] at hw
      rw [← hw.1]
      simp [nodeHeight, nodeHeightList]
    · simp only [hcut, Bool.false_eq_true, if_false] at hw
      cases root with
      | file name st rd ct =>
        simp only [Except.ok.injEq, Prod.mk.injEq] at hw
        rw [← hw.1]
        simp [nodeHeight, nodeHeightList]
      | dir name st li es =>
        cases li with
        | false =>
          simp only [Bool.not_false, if_true, Except.ok.injEq, Prod.mk.injEq] at hw
          rw [← hw.1]
          simp [nodeHeight, nodeHeightList]
        | true =>
          simp only [Bool.not_true, Bool.false_eq_true, if_false] at hw
          have hk0 : depthCut args.depth 0 = false := by simpa using hcut
          cases hres : walkEntries env args
              (args.ignore ++ base_ignore ++
                (if args.use_gitignore then load_gitignore_patterns env rootPath else []))
              rootPath 0 (sortEntries es)
              { files := 0, dirs := 0, size := 0, tokens := 0,
                skipped := prePassSkipped
                  (args.ignore ++ base_ignore ++
                    (if args.use_gitignore then load_gitignore_patterns env rootPath else []))
                  args.depth 0 (.dir name st true es) }
              cache with
          | error u => rw [hres] at hw; exact absurd hw (by simp)
          | ok r =>
            obtain ⟨children, stats1, cache1⟩ := r
            rw [hres] at hw
            simp only [Except.ok.injEq, Prod.mk.injEq] at hw
            have hb := (walk_height_aux (fsSizeList (sortEntries es))).2 env args
              (args.ignore ++ base_ignore ++
                (if args.use_gitignore then load_gitignore_patterns env rootPath else []))
              rootPath 0 (sortEntries es)
              { files := 0, dirs := 0, size := 0, tokens := 0,
                skipped := prePassSkipped
                  (args.ignore ++ base_ignore ++
                    (if args.use_gitignore then load_gitignore_patterns env rootPath else []))
                  args.depth 0 (.dir name st true es) }
              cache d children stats1 cache1 (le_refl _) huc hd hk0 hres
            rw [← hw.1]
            simpa [nodeHeight] using hb
  · intro patterns dOpt depth nm st li fn fst frd fct es
    simp [prePassSkipped, List.filter_cons, FSEntry.isDir]

/-- C4 (witness): the amended statements applied at the
counterexample's concrete inputs: the depth-`1` scan's tree has height
exactly `1 = d`; dropping the file `f` from the depth-cut directory
`s` leaves the pre-pass count unchanged; and the walker step on `s`
emits it with zero children, advancing only `dirs`. -/
theorem C4_depth_amended_witness :
    nodeHeight (.dir "r" "/r" none [
        .dir "s" "/r/s" (some 2) [],
        .file "a.txt" "/r/a.txt" 10 7 .omitted]) ≤ 1 ∧
    prePassSkipped [] (some 1) 1
        (.dir "s" (some 2) true [.file "f" (some (11, 3)) true [],
          .dir "t" (some 3) true []]) =
      prePassSkipped [] (some 1) 1
        (.dir "s" (some 2) true [.dir "t" (some 3) true []]) ∧
    walkEntry cEnv
      { ignore := [], use_gitignore := false, depth := some 1,
        use_cache := false, no_content := true }
      [] ["r"] 0
      (.dir "s" (some 2) true [.file "f" (some (11, 3)) true [],
        .dir "t" (some 3) true []])
      ⟨0, 0, 0, 0, 0⟩ [] =
      .ok (some (Node.dir "s" "/r/s" (some 2) []), ⟨0, 1, 0, 0, 0⟩, []) := by
  refine ⟨?_, ?_, ?_⟩
  · refine C4_depth_amended.1 cEnv ["r"]
      (.dir "r" (some 1) true [
        .file "a.txt" (some (10, 7)) true [],
        .dir "s" (some 2) true [.file "f" (some (11, 3)) true [],
          .dir "t" (some 3) true []]])
      { ignore := [], use_gitignore := false, depth := some 1,
        use_cache := false, no_content := true } [] 1
      (.dir "r" "/r" none [
        .dir "s" "/r/s" (some 2) [],
        .file "a.txt" "/r/a.txt" 10 7 .omitted])
      ⟨1, 1, 7, 0, 1⟩ [] rfl rfl ?_
    simp [map_directory, cEnv, walkEntry, walkEntries, prePassSkipped, prePassList,
      should_ignore, base_ignore, fnmatch, globMatch, pathStr, depthCut, sortEntries,
      insertSortedStable, entryLE, FSEntry.name, FSEntry.isFile, FSEntry.isDir,
      FSEntry.statInfo, cacheLookup, cacheInsert, cacheHit, List.filter, List.foldl,
      load_gitignore_patterns]
  · exact C4_depth_amended.2.1 [] (some 1) 1 "s" (some 2) true "f" (some (11, 3)) true []
      [.dir "t" (some 3) true []]
  · have h := C4_depth_amended.2.2 cEnv
      { ignore := [], use_gitignore := false, depth := some 1,
        use_cache := false, no_content := true }
      [] ["r"] 0 "s" 2 true
      [.file "f" (some (11, 3)) true [], .dir "t" (some 3) true []]
      ⟨0, 0, 0, 0, 0⟩ [] (by rfl) (by rfl) (by rfl)
    rw [h]
    rfl

theorem entryLE_total (a b : FSEntry) : entryLE a b = true ∨ entryLE b a = true := by
  cases ha : a.isFile <;> cases hb : b.isFile <;>
    simp [entryLE, ha, hb] <;> exact le_total _ _

theorem entryLE_trans {a b c : FSEntry} (h1 : entryLE a b = true)
    (h2 : entryLE b c = true) : entryLE a c = true := by
  cases ha : a.isFile <;> cases hb : b.isFile <;> cases hc : c.isFile <;>
    simp_all [entryLE] <;> exact le_trans h1 h2

theorem mem_insertSortedStable (z x : FSEntry) (l : List FSEntry) :
    z ∈ insertSortedStable x l ↔ z = x ∨ z ∈ l := by
  induction l with
  | nil => simp [insertSortedStable]
  | cons y ys ih =>
    by_cases h : entryLE y x = true <;> simp [insertSortedStable, h, ih] <;> tauto

theorem pairwise_insertSortedStable (x : FSEntry) (l : List FSEntry)
    (h : l.Pairwise (fun a b => entryLE a b = true)) :
    (insertSortedStable x l).Pairwise (fun a b => entryLE a b = true) := by
  induction l with
  | nil => simp [insertSortedStable]
  | cons y ys ih =>
    rw [List.pairwise_cons] at h
    by_cases hyx : entryLE y x = true
    · have he : insertSortedStable x (y :: ys) = y :: insertSortedStable x ys := by
        simp [insertSortedStable, hyx]
      rw [he, List.pairwise_cons]
      refine ⟨?_, ih h.2⟩
      intro z hz
      rcases (mem_insertSortedStable z x ys).mp hz with hzx | hzy
      · rw [hzx]; exact hyx
      · exact h.1 z hzy
    · have hxy : entryLE x y = true := by
        rcases entryLE_total x y with h' | h'
        · exact h'
        · exact absurd h' hyx
      have he : insertSortedStable x (y :: ys) = x :: y :: ys := by
        simp [insertSortedStable, hyx]
      rw [he, List.pairwise_cons]
      refine ⟨?_, ?_⟩
      · intro z hz
        rcases List.mem_cons.mp hz with hzy | hzys
        · rw [hzy]; exact hxy
        · exact entryLE_trans hxy (h.1 z hzys)
      · rw [List.pairwise_cons]
        exact h

theorem pairwise_sortEntries (es : List FSEntry) :
    (sortEntries es).Pairwise (fun a b => entryLE a b = true) := by
  have general : ∀ (l acc : List FSEntry),
      acc.Pairwise (fun a b => entryLE a b = true) →
      (l.foldl (fun a e => insertSortedStable e a) acc).Pairwise
        (fun a b => entryLE a b = true) := by
    intro l
    induction l with
    | nil => intro acc h; simpa using h
    | cons e es2 ih =>
      intro acc h
      exact ih _ (pairwise_insertSortedStable e acc h)
  exact general es [] (by simp)

theorem nodeKeyLE_of_entryLE {e e' : FSEntry} {n n' : Node}
    (h1 : n.name = e.name) (h2 : n.isFile = e.isFile)
    (h3 : n'.name = e'.name) (h4 : n'.isFile = e'.isFile)
    (h : entryLE e e' = true) : nodeKeyLE n n' = true := by
  simp only [nodeKeyLE, h1, h2, h3, h4]
  simpa only [entryLE] using h

theorem sortedNodeList_eq_true_of_pairwise {ns : List Node}
    (h : ns.Pairwise (fun a b => nodeKeyLE a b = true)) :
    sortedNodeList ns = true := by
  induction ns with
  | nil => simp [sortedNodeList]
  | cons a t ih =>
    cases t with
    | nil => simp [sortedNodeList]
    | cons b r =>
      rw [List.pairwise_cons] at h
      simp only [sortedNodeList, Bool.and_eq_true]
      exact ⟨h.1 b (by simp), ih h.2⟩

theorem sortedChildrenList_eq_true_of_forall {ns : List Node}
    (h : ∀ n ∈ ns, sortedChildren n = true) :
    sortedChildrenList ns = true := by
  induction ns with
  | nil => simp [sortedChildrenList]
  | cons a t ih =>
    simp only [sortedChildrenList, Bool.and_eq_true]
    exact ⟨h a (by simp), ih (fun n hn => h n (by simp [hn]))⟩

/-- Strong-induction core for child ordering: with caching disabled,
every emitted node mirrors its entry's name and kind and has all its
directory descendants' child lists sorted; a child list produced from a
`entryLE`-sorted entry list is `nodeKeyLE`-sorted. -/
theorem walk_sorted_aux : ∀ N : Nat,
    (∀ (env : Env) (args : Args) (patterns pp : List String) (k : Nat)
      (e : FSEntry) (stats : Stats) (cache : Cache) (n? : Option Node)
      (stats' : Stats) (cache' : Cache), fsSize e ≤ N →
      args.use_cache = false →
      walkEntry env args patterns pp k e stats cache = .ok (n?, stats', cache') →
      ∀ n ∈ n?.toList, sortedChildren n = true ∧ n.name = e.name ∧
        n.isFile = e.isFile) ∧
    (∀ (env : Env) (args : Args) (patterns pp : List String) (k : Nat)
      (es : List FSEntry) (stats : Stats) (cache : Cache) (ns : List Node)
      (stats' : Stats) (cache' : Cache), fsSizeList es ≤ N →
      args.use_cache = false →
      es.Pairwise (fun a b => entryLE a b = true) →
      walkEntries env args patterns pp k es stats cache = .ok (ns, stats', cache') →
      (∀ n ∈ ns, sortedChildren n = true ∧
        ∃ e ∈ es, n.name = e.name ∧ n.isFile = e.isFile) ∧
      ns.Pairwise (fun a b => nodeKeyLE a b = true)) := by
  intro N
  induction N using Nat.strong_induction_on with
  | _ N IH =>
    have p1 : ∀ (env : Env) (args : Args) (patterns pp : List String) (k : Nat)
        (e : FSEntry) (stats : Stats) (cache : Cache) (n? : Option Node)
        (stats' : Stats) (cache' : Cache), fsSize e ≤ N →
        args.use_cache = false →
        walkEntry env args patterns pp k e stats cache = .ok (n?, stats', cache') →
        ∀ n ∈ n?.toList, sortedChildren n = true ∧ n.name = e.name ∧
          n.isFile = e.isFile := by
      intro env args patterns pp k e stats cache n? stats' cache' hsize huc hw n hn
      by_cases hig : should_ignore e.name (pathStr (pp ++ [e.name])) patterns = true
      · rw [walkEntry_ignored _ _ _ _ _ _ _ _ hig] at hw
        simp only [Except.ok.injEq, Prod.mk.injEq] at hw
        rw [← hw.1] at hn
        simp [Option.toList] at hn
      · have hig' : should_ignore e.name (pathStr (pp ++ [e.name])) patterns = false := by
          simpa using hig
        cases e with
        | file name st rd ct =>
          cases st with
          | none =>
            rw [walkEntry_stat_raises _ _ _ _ _ _ _ _ hig' (by rfl)] at hw
            exact absurd hw (by simp)
          | some v =>
            obtain ⟨mt, sz⟩ := v
            rw [walkEntry_file_fresh env args patterns pp k name mt sz rd ct stats cache
              hig' (by rw [huc]; exact cacheHit_false _ _ _)] at hw
            simp only [huc, Bool.false_eq_true, if_false, Except.ok.injEq,
              Prod.mk.injEq] at hw
            rw [← hw.1] at hn
            simp only [Option.toList_some, List.mem_singleton] at hn
            subst hn
            simp [freshFileNode, sortedChildren, Node.name, Node.isFile,
              FSEntry.name, FSEntry.isFile]
        | dir name st li es =>
          cases st with
          | none =>
            rw [walkEntry_stat_raises _ _ _ _ _ _ _ _ hig' (by rfl)] at hw
            exact absurd hw (by simp)
          | some mt =>
            by_cases hcut : depthCut args.depth (k + 1) = true
            · rw [walkEntry_dir_cut env args patterns pp k name mt li es stats cache
                hig' (by rw [huc]; exact cacheHit_false _ _ _) hcut] at hw
              simp only [huc, Bool.false_eq_true, if_false, Except.ok.injEq,
                Prod.mk.injEq] at hw
              rw [← hw.1] at hn
              simp only [Option.toList_some, List.mem_singleton] at hn
              subst hn
              simp [sortedChildren, sortedNodeList, sortedChildrenList,
                Node.name, Node.isFile, FSEntry.name, FSEntry.isFile]
            · have hcut' : depthCut args.depth (k + 1) = false := by simpa using hcut
              cases li with
              | false =>
                rw [walkEntry_dir_unlistable env args patterns pp k name mt es stats cache
                  hig' (by rw [huc]; exact cacheHit_false _ _ _) hcut'] at hw
                simp only [huc, Bool.false_eq_true, if_false, Except.ok.injEq,
                  Prod.mk.injEq] at hw
                rw [← hw.1] at hn
                simp only [Option.toList_some, List.mem_singleton] at hn
                subst hn
                simp [sortedChildren, sortedNodeList, sortedChildrenList,
                  Node.name, Node.isFile, FSEntry.name, FSEntry.isFile]
              | true =>
                rw [walkEntry_dir_descend env args patterns pp k name mt es stats cache
                  hig' (by rw [huc]; exact cacheHit_false _ _ _) hcut'] at hw
                cases hres : walkEntries env args patterns (pp ++ [name]) (k + 1)
                    (sortEntries es) { stats with dirs := stats.dirs + 1 } cache with
                | error u => rw [hres] at hw; exact absurd hw (by simp)
                | ok r =>
                  obtain ⟨children, stats2, cache2⟩ := r
                  rw [hres] at hw
                  simp only [huc, Bool.false_eq_true, if_false, Except.ok.injEq,
                    Prod.mk.injEq] at hw
                  have hlt : fsSizeList (sortEntries es) < N := by
                    rw [fsSizeList_sortEntries]
                    have : fsSize (FSEntry.dir name (some mt) true es) = 1 + fsSizeList es := rfl
                    omega
                  have hrec := (IH (fsSizeList (sortEntries es)) hlt).2 env args patterns
                    (pp ++ [name]) (k + 1) (sortEntries es)
                    { stats with dirs := stats.dirs + 1 } cache children stats2 cache2
                    (le_refl _) huc (pairwise_sortEntries es) hres
                  rw [← hw.1] at hn
                  simp only [Option.toList_some, List.mem_singleton] at hn
                  subst hn
                  refine ⟨?_, by simp [Node.name, FSEntry.name],
                    by simp [Node.isFile, FSEntry.isFile]⟩
                  simp only [sortedChildren, Bool.and_eq_true]
                  exact ⟨sortedNodeList_eq_true_of_pairwise hrec.2,
                    sortedChildrenList_eq_true_of_forall (fun m hm => (hrec.1 m hm).1)⟩
    refine ⟨p1, ?_⟩
    intro env args patterns pp k es stats cache ns stats' cache' hsize huc hp hw
    cases es with
    | nil =>
      rw [walkEntries_nil] at hw
      simp only [Except.ok.injEq, Prod.mk.injEq] at hw
      rw [← hw.1]
      simp
    | cons e es' =>
      rw [List.pairwise_cons] at hp
      rw [walkEntries_cons] at hw
      cases hres : walkEntry env args patterns pp k e stats cache with
      | error u => rw [hres] at hw; exact absurd hw (by simp)
      | ok r =>
        obtain ⟨n?, stats1, cache1⟩ := r
        rw [hres] at hw
        dsimp only at hw
        cases hres2 : walkEntries env args patterns pp k es' stats1 cache1 with
        | error u => rw [hres2] at hw; exact absurd hw (by simp)
        | ok r2 =>
          obtain ⟨ns1, stats2, cache2⟩ := r2
          rw [hres2] at hw
          simp only [Except.ok.injEq, Prod.mk.injEq] at hw
          have hhead := p1 env args patterns pp k e stats cache n? stats1 cache1
            (by have : fsSizeList (e :: es') = fsSize e + fsSizeList es' := rfl; omega)
            huc hres
          have hlt2 : fsSizeList es' < N := by
            have h1 := fsSize_pos e
            have : fsSizeList (e :: es') = fsSize e + fsSizeList es' := rfl
            omega
          have htail := (IH (fsSizeList es') hlt2).2 env args patterns pp k es' stats1
            cache1 ns1 stats2 cache2 (le_refl _) huc hp.2 hres2
          rw [← hw.1]
          constructor
          · intro n hn
            rcases List.mem_append.mp hn with hh | ht
            · have h := hhead n hh
              exact ⟨h.1, e, by simp, h.2.1, h.2.2⟩
            · have h := htail.1 n ht
              obtain ⟨hs, e', he', hname, hfile⟩ := h
              exact ⟨hs, e', by simp [he'], hname, hfile⟩
          · rw [List.pairwise_append]
            refine ⟨?_, htail.2, ?_⟩
            · cases n? with
              | none => simp
              | some n => simp
            · intro a ha b hb
              have h1 := hhead a ha
              obtain ⟨_, e', he', hname, hfile⟩ := htail.1 b hb
              exact nodeKeyLE_of_entryLE h1.2.1 h1.2.2 hname hfile (hp.1 e' he')

/-- C5 (counterexample): with caching enabled, a stale cache entry can
break the child ordering.  A first scan stored the file node for
`/r/b`; before the second scan, `b` was replaced by a *directory* with
the same modification time.  The second scan sorts the current entries
as `[dir b, file a]` (directories first), but the cache hit on `/r/b`
re-emits the stored *file* node verbatim, so the emitted children are
the file `b` followed by the file `a` — not sorted by
`(is_file, lowercase name)`. -/
theorem C5_stale_cache_counterexample :
    map_directory cEnv ["r"]
      (.dir "r" (some 1) true [
        .file "a" (some (6, 1)) true [],
        .dir "b" (some 5) true []])
      { ignore := [], use_gitignore := false, depth := none,
        use_cache := true, no_content := true }
      [("/r/b", 5, Node.file "b" "/r/b" 5 9 Summary.omitted)] =
      .ok (.dir "r" "/r" none [
          Node.file "b" "/r/b" 5 9 Summary.omitted,
          Node.file "a" "/r/a" 6 1 Summary.omitted],
        { files := 1, dirs := 0, size := 1, tokens := 0, skipped := 0 },
        [("/r/b", 5, Node.file "b" "/r/b" 5 9 Summary.omitted),
         ("/r/a", 6, Node.file "a" "/r/a" 6 1 Summary.omitted)]) ∧
    sortedChildren (.dir "r" "/r" none [
        Node.file "b" "/r/b" 5 9 Summary.omitted,
        Node.file "a" "/r/a" 6 1 Summary.omitted]) = false := by
  constructor
  · simp [map_directory, cEnv, walkEntry, walkEntries, prePassSkipped, prePassList,
      should_ignore, base_ignore, fnmatch, globMatch, pathStr, depthCut, sortEntries,
      insertSortedStable, entryLE, pyLower, FSEntry.name, FSEntry.isFile, FSEntry.isDir,
      FSEntry.statInfo, cacheLookup, cacheInsert, cacheHit, List.filter, List.foldl,
      load_gitignore_patterns]
  · simp +decide [sortedChildren, sortedNodeList, sortedChildrenList, nodeKeyLE,
      Node.name, Node.isFile, pyLower]

/-- C5 (amended): for scans with caching disabled, every directory of
the emitted tree has its children sorted by `(is_file, lowercase name)`
ascending — sub-directories before files, each group ordered
case-insensitively.  (With caching enabled a cache hit re-emits the
stored node verbatim, so the ordering can only be broken by a stale
entry whose kind changed under an unchanged modification time, as in
the counterexample.) -/
theorem C5_child_ordering_amended :
    ∀ (env : Env) (rootPath : List String) (root : FSEntry) (args : Args)
      (cache : Cache) (tree : Node) (stats' : Stats) (cache' : Cache),
      args.use_cache = false →
      map_directory env rootPath root args cache = .ok (tree, stats', cache') →
      sortedChildren tree = true := by
  intro env rootPath root args cache tree stats' cache' huc hw
  unfold map_directory at hw
  by_cases hcut : depthCut args.depth 0 = true
  · simp only [hcut, if_true, Except.ok.injEq, Prod.mk.injEq] at hw
    rw [← hw.1]
    simp [sortedChildren, sortedNodeList, sortedChildrenList]
  · simp only [hcut, Bool.false_eq_true, if_false] at hw
    cases root with
    | file name st rd ct =>
      simp only [Except.ok.injEq, Prod.mk.injEq] at hw
      rw [← hw.1]
      simp [sortedChildren, sortedNodeList, sortedChildrenList]
    | dir name st li es =>
      cases li with
      | false =>
        simp only [Bool.not_false, if_true, Except.ok.injEq, Prod.mk.injEq] at hw
        rw [← hw.1]
        simp [sortedChildren, sortedNodeList, sortedChildrenList]
      | true =>
        simp only [Bool.not_true, Bool.false_eq_true, if_false] at hw
        cases hres : walkEntries env args
            (args.ignore ++ base_ignore ++
              (if args.use_gitignore then load_gitignore_patterns env rootPath else []))
            rootPath 0 (sortEntries es)
            { files := 0, dirs := 0, size := 0, tokens := 0,
              skipped := prePassSkipped
                (args.ignore ++ base_ignore ++
                  (if args.use_gitignore then load_gitignore_patterns env rootPath else []))
                args.depth 0 (.dir name st true es) }
            cache with
        | error u => rw [hres] at hw; exact absurd hw (by simp)
        | ok r =>
          obtain ⟨children, stats1, cache1⟩ := r
          rw [hres] at hw
          simp only [Except.ok.injEq, Prod.mk.injEq] at hw
          have hs := (walk_sorted_aux (fsSizeList (sortEntries es))).2 env args
            (args.ignore ++ base_ignore ++
              (if args.use_gitignore then load_gitignore_patterns env rootPath else []))
            rootPath 0 (sortEntries es)
            { files := 0, dirs := 0, size := 0, tokens := 0,
              skipped := prePassSkipped
                (args.ignore ++ base_ignore ++
                  (if args.use_gitignore then load_gitignore_patterns env rootPath else []))
                args.depth 0 (.dir name st true es) }
            cache children stats1 cache1 (le_refl _) huc (pairwise_sortEntries es) hres
          rw [← hw.1]
          simp only [sortedChildren, Bool.and_eq_true]
          exact ⟨sortedNodeList_eq_true_of_pairwise hs.2,
            sortedChildrenList_eq_true_of_forall (fun m hm => (hs.1 m hm).1)⟩

/-- C5 (witness): the amended ordering statement at a concrete
cache-disabled scan over a mixed, case-varied set of names: the
children come out as `[dir a, dir Z, file a.txt, file B.txt]` —
directories first, each group sorted case-insensitively — and the
theorem certifies this order sorted. -/
theorem C5_child_ordering_amended_witness :
    sortedChildren (.dir "r" "/r" none [
      Node.dir "a" "/r/a" (some 2) [],
      Node.dir "Z" "/r/Z" (some 3) [],
      Node.file "a.txt" "/r/a.txt" 4 1 .omitted,
      Node.file "B.txt" "/r/B.txt" 5 2 .omitted]) = true := by
  refine C5_child_ordering_amended cEnv ["r"]
    (.dir "r" (some 1) true [
      .file "B.txt" (some (5, 2)) true [],
      .dir "a" (some 2) true [],
      .file "a.txt" (some (4, 1)) true [],
      .dir "Z" (some 3) true []])
    { ignore := [], use_gitignore := false, depth := none,
      use_cache := false, no_content := true } []
    (.dir "r" "/r" none [
      Node.dir "a" "/r/a" (some 2) [],
      Node.dir "Z" "/r/Z" (some 3) [],
      Node.file "a.txt" "/r/a.txt" 4 1 .omitted,
      Node.file "B.txt" "/r/B.txt" 5 2 .omitted])
    ⟨2, 2, 3, 0, 0⟩ [] rfl ?_
  simp +decide [map_directory, cEnv, walkEntry, walkEntries, prePassSkipped, prePassList,
    should_ignore, base_ignore, fnmatch, globMatch, pathStr, depthCut, sortEntries,
    insertSortedStable, entryLE, pyLower, FSEntry.name, FSEntry.isFile, FSEntry.isDir,
    FSEntry.statInfo, cacheLookup, cacheInsert, cacheHit, List.filter, List.foldl,
    load_gitignore_patterns]

end DirMapper
